import Mathlib

/-!
# AFRO_system — verification of the streaming frame demultiplexer

Shallow embedding of the two buffer-scanning parsers of the repository:

* the typed-identifier parser of `debug.py` (`receive_data_tcp`, lines 42-104):
  records are `[1-byte kind][fixed payload]`, kind `0x01` = audio
  (`AUDIO_CHUNK_SIZE * 2` payload bytes, little-endian signed 16-bit samples),
  kind `0x02` = IMU (28 payload bytes, 6 little-endian 32-bit floats plus one
  little-endian 32-bit unsigned timestamp);

* the marker-delimited parser of `network_handler.py` (`receive_data_tcp`,
  lines 43-110): audio samples are 4-byte little-endian signed integers
  consumed at stream position, interrupted wherever the 4-byte marker
  `FF FE FD FC` appears; the marker introduces a 24-byte IMU payload
  (6 little-endian 32-bit floats).

Bytes are modelled as `Nat` (reduced mod 256 at every decode, as `struct`
sees genuine octets).  IEEE-754 float fields are represented by their 32-bit
little-endian bit patterns (a 4-byte group decodes to the `Nat` word holding
the float's bits); this representation is injective, so equalities between
decoded IMU tuples proved here hold for the float tuples as well.
-/

namespace AFRO

/-! ## Binary decoding helpers (Python `struct`, little-endian) -/

/-- `struct.unpack('<h', ...)`: one little-endian signed 16-bit integer. -/
def decodeI16 (b0 b1 : Nat) : Int :=
  let u := b0 % 256 + 256 * (b1 % 256)
  if u < 32768 then (u : Int) else (u : Int) - 65536

/-- `struct.unpack(f'<{n}h', ...)`: consecutive little-endian signed 16-bit
samples (`debug.py` line 66-67). -/
def decodeAudio16 : List Nat → List Int
  | b0 :: b1 :: rest => decodeI16 b0 b1 :: decodeAudio16 rest
  | _ => []

/-- Little-endian 32-bit word from four bytes (bit pattern of a float field,
or the value of a `<I` timestamp). -/
def word32 (b0 b1 b2 b3 : Nat) : Nat :=
  b0 % 256 + 256 * (b1 % 256) + 65536 * (b2 % 256) + 16777216 * (b3 % 256)

/-- `struct.unpack('<i', ...)`: one little-endian signed 32-bit integer
(`config.AUDIO_SAMPLE_FORMAT`). -/
def decodeI32l : List Nat → Int
  | [b0, b1, b2, b3] =>
    let u := word32 b0 b1 b2 b3
    if u < 2147483648 then (u : Int) else (u : Int) - 4294967296
  | _ => 0

/-- Consecutive little-endian 32-bit words: the faithful (bit-level) image of
`struct.unpack('<ffffffI', ...)` / `struct.unpack('<ffffff', ...)`. -/
def decodeWords : List Nat → List Nat
  | b0 :: b1 :: b2 :: b3 :: rest => word32 b0 b1 b2 b3 :: decodeWords rest
  | _ => []

/-! ## Configuration constants (`config.py`, `debug.py`) -/

/-- `config.AUDIO_CHUNK_SIZE` (samples per audio record of the typed parser). -/
def AUDIO_CHUNK_SIZE : Nat := 512

/-- `debug.AUDIO_DATA_ID`. -/
def AUDIO_DATA_ID : Nat := 1

/-- `debug.IMU_DATA_ID`. -/
def IMU_DATA_ID : Nat := 2

/-- `config.IMU_MARKER = b'\xFF\xFE\xFD\xFC'`. -/
def IMU_MARKER : List Nat := [255, 254, 253, 252]

/-- `config.IMU_PACKET_SIZE_BYTES = struct.calcsize('<ffffff') = 24`. -/
def IMU_PACKET_SIZE_BYTES : Nat := 24

/-- `config.AUDIO_BYTES_PER_SAMPLE = 4`. -/
def AUDIO_BYTES_PER_SAMPLE : Nat := 4

/-- `debug.expected_imu_packet_size = 28`. -/
def expected_imu_packet_size : Nat := 28

/-! ## The typed-identifier parser (`debug.py` lines 52-93)

State of the demultiplexer: the byte buffer plus the two output sequences.
The parser is parameterised by the audio record length (samples per packet;
the repository configures `AUDIO_CHUNK_SIZE = 512`) and by the IMU payload
decoder, so that the `except struct.error` branch of lines 85-87 — dead code
with the fixed 28-byte slice, where `decodeImuTyped` below always succeeds —
can be exercised; the parser proper instantiates `dec := decodeImuTyped`. -/

structure DState where
  buffer : List Nat
  audio : List Int
  imu : List (List Nat)
deriving DecidableEq

/-- `struct.unpack('<ffffffI', imu_packet)` (line 81): succeeds exactly when
the packet has the 28 bytes `calcsize` demands, and yields the 7 words. -/
def decodeImuTyped (p : List Nat) : Option (List Nat) :=
  if p.length = 28 then some (decodeWords p) else none

/-- One iteration of the `while True` loop of `debug.py` lines 52-93:
`none` models `break` (wait for more data), `some st'` one pass through the
loop body. -/
def typedStep (dec : List Nat → Option (List Nat)) (aLen : Nat) (st : DState) :
    Option DState :=
  match st.buffer with
  | [] => none
  | id0 :: rest =>
    if id0 = AUDIO_DATA_ID then
      if 1 + 2 * aLen ≤ st.buffer.length then
        some ⟨st.buffer.drop (1 + 2 * aLen),
          st.audio ++ decodeAudio16 ((st.buffer.drop 1).take (2 * aLen)), st.imu⟩
      else none
    else if id0 = IMU_DATA_ID then
      if 1 + expected_imu_packet_size ≤ st.buffer.length then
        match dec ((st.buffer.drop 1).take expected_imu_packet_size) with
        | some t => some ⟨st.buffer.drop 29, st.audio, st.imu ++ [t]⟩
        | none => some ⟨rest, st.audio, st.imu⟩
      else none
    else some ⟨rest, st.audio, st.imu⟩

theorem typedStep_length_lt {dec : List Nat → Option (List Nat)} {aLen : Nat}
    {st s' : DState} (h : typedStep dec aLen st = some s') :
    s'.buffer.length < st.buffer.length := by
  obtain ⟨b, a, i⟩ := st
  unfold typedStep at h
  cases b with
  | nil => cases h
  | cons id0 rest =>
    simp only at h
    by_cases h1 : id0 = AUDIO_DATA_ID
    · rw [if_pos h1] at h
      by_cases h2 : 1 + 2 * aLen ≤ (id0 :: rest).length
      · rw [if_pos h2] at h
        cases h
        simp only [List.length_drop, List.length_cons]
        omega
      · rw [if_neg h2] at h; cases h
    · rw [if_neg h1] at h
      by_cases h2 : id0 = IMU_DATA_ID
      · rw [if_pos h2] at h
        by_cases h3 : 1 + expected_imu_packet_size ≤ (id0 :: rest).length
        · rw [if_pos h3] at h
          rcases hd : dec ((List.drop 1 (id0 :: rest)).take expected_imu_packet_size)
            with _ | t
          · rw [hd] at h
            cases h
            simp
          · rw [hd] at h
            cases h
            simp only [List.length_drop]
            simp only [expected_imu_packet_size] at h3
            simp at h3 ⊢
            omega
        · rw [if_neg h3] at h; cases h
      · rw [if_neg h2] at h
        cases h
        simp

/-- The full inner parse loop (`while True: ... break`), run to completion. -/
def typedLoop (dec : List Nat → Option (List Nat)) (aLen : Nat) (st : DState) :
    DState :=
  match _h : typedStep dec aLen st with
  | some s' => typedLoop dec aLen s'
  | none => st
termination_by st.buffer.length
decreasing_by exact typedStep_length_lt _h

theorem typedLoop_none {dec : List Nat → Option (List Nat)} {aLen : Nat}
    {st : DState} (h : typedStep dec aLen st = none) :
    typedLoop dec aLen st = st := by
  rw [typedLoop]
  split
  · rename_i heq; rw [h] at heq; cases heq
  · rfl

theorem typedLoop_some {dec : List Nat → Option (List Nat)} {aLen : Nat}
    {st s' : DState} (h : typedStep dec aLen st = some s') :
    typedLoop dec aLen st = typedLoop dec aLen s' := by
  rw [typedLoop]
  split
  · rename_i s'' heq; rw [h] at heq; cases heq; rfl
  · rename_i heq; rw [h] at heq; cases heq

/-- `buffer += data` (line 49) followed by the inner parse loop. -/
def typedFeed (dec : List Nat → Option (List Nat)) (aLen : Nat) (st : DState)
    (c : List Nat) : DState :=
  typedLoop dec aLen ⟨st.buffer ++ c, st.audio, st.imu⟩

/-- The session's receive loop: feed the arriving chunks in order. -/
def typedFeeds (dec : List Nat → Option (List Nat)) (aLen : Nat) (st : DState)
    (cs : List (List Nat)) : DState :=
  cs.foldl (typedFeed dec aLen) st

/-- Fresh demultiplexer state (lines 24-28 of `debug.py`). -/
def initD : DState := ⟨[], [], []⟩

/-- The typed parser exactly as the repository runs it. -/
def typedFeedR : DState → List Nat → DState :=
  typedFeed decodeImuTyped AUDIO_CHUNK_SIZE

/-- The typed parser over a chunk sequence, as the repository runs it. -/
def typedFeedsR : DState → List (List Nat) → DState :=
  typedFeeds decodeImuTyped AUDIO_CHUNK_SIZE

/-! ## The marker-delimited parser (`network_handler.py` lines 72-109) -/

/-- Position of the first occurrence of `IMU_MARKER` in `l` (a complete
4-byte window), if any. -/
def findFrom : List Nat → Option Nat
  | [] => none
  | b :: t =>
    if (b :: t).take 4 = IMU_MARKER then some 0 else (findFrom t).map (· + 1)

/-- `data_buffer.find(config.IMU_MARKER, start)` (line 74): first occurrence
at an index `≥ start`, `none` for Python's `-1`. -/
def markerFind (B : List Nat) (start : Nat) : Option Nat :=
  (findFrom (B.drop start)).map (· + start)

theorem markerFind_ge {B : List Nat} {p m : Nat} (h : markerFind B p = some m) :
    p ≤ m := by
  unfold markerFind at h
  cases hf : findFrom (B.drop p) with
  | none => rw [hf] at h; cases h
  | some j => rw [hf] at h; simp at h; omega

/-- The inner audio loop of lines 78-85: consume 4-byte strides from
`p` while `p + 4 ≤ limit`, decoding each (`struct.unpack` succeeds only on a
full 4-byte slice; on error the sample is skipped but `p` still advances). -/
def audioStrides (B : List Nat) (limit : Nat) (p : Nat) (acc : List Int) :
    Nat × List Int :=
  if p + AUDIO_BYTES_PER_SAMPLE ≤ limit then
    let sb := (B.drop p).take AUDIO_BYTES_PER_SAMPLE
    audioStrides B limit (p + AUDIO_BYTES_PER_SAMPLE)
      (if sb.length = 4 then acc ++ [decodeI32l sb] else acc)
  else (p, acc)
termination_by limit - p
decreasing_by simp only [AUDIO_BYTES_PER_SAMPLE] at *; omega

theorem audioStrides_stop {B : List Nat} {limit p : Nat} {acc : List Int}
    (h : ¬ p + 4 ≤ limit) : audioStrides B limit p acc = (p, acc) := by
  rw [audioStrides]
  simp only [AUDIO_BYTES_PER_SAMPLE]
  rw [if_neg h]

theorem audioStrides_go {B : List Nat} {limit p : Nat} {acc : List Int}
    (h : p + 4 ≤ limit) :
    audioStrides B limit p acc =
      audioStrides B limit (p + 4)
        (if ((B.drop p).take 4).length = 4 then
          acc ++ [decodeI32l ((B.drop p).take 4)] else acc) := by
  conv_lhs => rw [audioStrides]
  simp only [AUDIO_BYTES_PER_SAMPLE]
  rw [if_pos h]

/-- The outer `while True` loop of lines 73-105, operating on the fixed
buffer `B` with scan offset `p`; returns the final `processed_bytes_this_pass`
and the accumulated output sequences. -/
def markerLoop (B : List Nat) (p : Nat) (audio : List Int)
    (imu : List (List Nat)) : Nat × List Int × List (List Nat) :=
  match _h : markerFind B p with
  | none =>
    let r := audioStrides B B.length p audio
    (r.1, r.2, imu)
  | some m =>
    let r := audioStrides B m p audio
    if _h2 : m + 4 + IMU_PACKET_SIZE_BYTES ≤ B.length then
      markerLoop B (m + 4 + IMU_PACKET_SIZE_BYTES) r.2
        (imu ++ [decodeWords ((B.drop (m + 4)).take IMU_PACKET_SIZE_BYTES)])
    else (r.1, r.2, imu)
termination_by B.length - p
decreasing_by
  have := markerFind_ge _h
  simp only [IMU_PACKET_SIZE_BYTES] at *
  omega

theorem markerLoop_none {B : List Nat} {p : Nat} {audio : List Int}
    {imu : List (List Nat)} (h : markerFind B p = none) :
    markerLoop B p audio imu =
      ((audioStrides B B.length p audio).1,
        (audioStrides B B.length p audio).2, imu) := by
  rw [markerLoop]
  split
  · rfl
  · rename_i m heq; rw [h] at heq; cases heq

theorem markerLoop_some_full {B : List Nat} {p m : Nat} {audio : List Int}
    {imu : List (List Nat)} (h : markerFind B p = some m)
    (h2 : m + 4 + IMU_PACKET_SIZE_BYTES ≤ B.length) :
    markerLoop B p audio imu =
      markerLoop B (m + 4 + IMU_PACKET_SIZE_BYTES)
        (audioStrides B m p audio).2
        (imu ++ [decodeWords ((B.drop (m + 4)).take IMU_PACKET_SIZE_BYTES)]) := by
  rw [markerLoop]
  split
  · rename_i heq; rw [h] at heq; cases heq
  · rename_i m' heq; rw [h] at heq; cases heq
    rw [dif_pos h2]

theorem markerLoop_some_wait {B : List Nat} {p m : Nat} {audio : List Int}
    {imu : List (List Nat)} (h : markerFind B p = some m)
    (h2 : ¬ m + 4 + IMU_PACKET_SIZE_BYTES ≤ B.length) :
    markerLoop B p audio imu =
      ((audioStrides B m p audio).1, (audioStrides B m p audio).2, imu) := by
  rw [markerLoop]
  split
  · rename_i heq; rw [h] at heq; cases heq
  · rename_i m' heq; rw [h] at heq; cases heq
    rw [dif_neg h2]

/-- State of the marker-delimited demultiplexer. -/
structure MState where
  buffer : List Nat
  audio : List Int
  imu : List (List Nat)
deriving DecidableEq

/-- `data_buffer.extend(data_chunk)` (line 56), one pass of the parsing
logic, then `data_buffer = data_buffer[processed_bytes_this_pass:]`
(lines 107-109; a no-op when `processed = 0`, exactly as dropping 0). -/
def markerFeed (st : MState) (c : List Nat) : MState :=
  let B := st.buffer ++ c
  let r := markerLoop B 0 st.audio st.imu
  ⟨B.drop r.1, r.2.1, r.2.2⟩

/-- The session's receive loop: feed the arriving chunks in order. -/
def markerFeeds (st : MState) (cs : List (List Nat)) : MState :=
  cs.foldl markerFeed st

/-- Fresh demultiplexer state (lines 11-13 of `network_handler.py`). -/
def initM : MState := ⟨[], [], []⟩

/-! ## Wire-format records

A record of the typed-identifier format: `[1-byte kind][fixed payload]`. -/

inductive TRec
  | taud (p : List Nat)
  | timu (p : List Nat)
deriving DecidableEq

/-- Encoding of a typed record on the wire. -/
def TRec.enc : TRec → List Nat
  | .taud p => AUDIO_DATA_ID :: p
  | .timu p => IMU_DATA_ID :: p

/-- Well-formedness: the payload has the kind's fixed size
(`2 * aLen` audio bytes, 28 IMU bytes). -/
def TRec.wf (aLen : Nat) : TRec → Prop
  | .taud p => p.length = 2 * aLen
  | .timu p => p.length = 28

instance : ∀ (aLen : Nat) (r : TRec), Decidable (TRec.wf aLen r)
  | aLen, .taud p => inferInstanceAs (Decidable (p.length = 2 * aLen))
  | _, .timu p => inferInstanceAs (Decidable (p.length = 28))

/-- Audio samples a typed record contributes. -/
def TRec.audioOut : TRec → List Int
  | .taud p => decodeAudio16 p
  | .timu _ => []

/-- IMU tuples a typed record contributes. -/
def TRec.imuOut : TRec → List (List Nat)
  | .taud _ => []
  | .timu p => [decodeWords p]

def TRec.isAud : TRec → Bool
  | .taud _ => true
  | .timu _ => false

/-- Byte stream of a whole number of typed records. -/
def tEnc (rs : List TRec) : List Nat := (rs.map TRec.enc).flatten

def tAudioOuts (rs : List TRec) : List Int := (rs.map TRec.audioOut).flatten

def tImuOuts (rs : List TRec) : List (List Nat) := (rs.map TRec.imuOut).flatten

/-- A record of the marker-delimited format: a bare 4-byte audio sample, or
the marker followed by a 24-byte IMU payload. -/
inductive MRec
  | maud (p : List Nat)
  | mimu (p : List Nat)
deriving DecidableEq

/-- Encoding of a marker-format record on the wire. -/
def MRec.enc : MRec → List Nat
  | .maud p => p
  | .mimu p => IMU_MARKER ++ p

/-- Well-formedness: 4 audio bytes, 24 IMU payload bytes. -/
def MRec.wf : MRec → Prop
  | .maud p => p.length = 4
  | .mimu p => p.length = 24

instance : ∀ r : MRec, Decidable (MRec.wf r)
  | .maud p => inferInstanceAs (Decidable (p.length = 4))
  | .mimu p => inferInstanceAs (Decidable (p.length = 24))

def MRec.isImu : MRec → Bool
  | .maud _ => false
  | .mimu _ => true

/-- Audio samples a marker-format record contributes. -/
def MRec.audioOut : MRec → List Int
  | .maud p => [decodeI32l p]
  | .mimu _ => []

/-- IMU tuples a marker-format record contributes. -/
def MRec.imuOut : MRec → List (List Nat)
  | .maud _ => []
  | .mimu p => [decodeWords p]

/-- Byte stream of a whole number of marker-format records. -/
def mEnc (rs : List MRec) : List Nat := (rs.map MRec.enc).flatten

def mAudioOuts (rs : List MRec) : List Int := (rs.map MRec.audioOut).flatten

def mImuOuts (rs : List MRec) : List (List Nat) := (rs.map MRec.imuOut).flatten

/-- A complete occurrence of the 4-byte marker at offset `i` of `B`. -/
def isMarkerAt (B : List Nat) (i : Nat) : Prop := (B.drop i).take 4 = IMU_MARKER

instance (B : List Nat) (i : Nat) : Decidable (isMarkerAt B i) :=
  inferInstanceAs (Decidable ((B.drop i).take 4 = IMU_MARKER))

/-- Start offsets of the IMU records (i.e. of their markers) in the encoding
of `rs`, counted from `off`. -/
def imuStarts : List MRec → Nat → List Nat
  | [], _ => []
  | r :: rs, off =>
    (if r.isImu then [off] else []) ++ imuStarts rs (off + r.enc.length)

/-- No marker collision: every complete occurrence of the marker byte
sequence in the encoded stream is the introducer of one of its IMU records. -/
def cleanS (rs : List MRec) : Prop :=
  ∀ i < (mEnc rs).length, isMarkerAt (mEnc rs) i → i ∈ imuStarts rs 0

instance (rs : List MRec) : Decidable (cleanS rs) :=
  inferInstanceAs (Decidable (∀ i < (mEnc rs).length,
    isMarkerAt (mEnc rs) i → i ∈ imuStarts rs 0))

/-! ## Session driver (`debug.py` lines 34-121, `network_handler.py`
lines 26-141)

Network I/O is abstracted to its outcome: either the connection attempt
fails before any data arrives (the `socket.timeout`, `ConnectionRefusedError`
and `OSError`/`socket.error` handlers), or it succeeds and a sequence of
chunks is received.  The wall-clock `actual_duration` of a successful
session is opaque and passed as a parameter; both scripts return the
accumulated sequences with duration `0` on a connection failure
(`debug.py` lines 106-119 return `[], [], 0` explicitly;
`network_handler.py` leaves `all_audio_samples = []`,
`all_imu_samples = []`, `actual_duration = 0` untouched, lines 11-16
and 124-141). -/

inductive ConnResult
  | connTimeout
  | connRefused
  | connOSError
  | connected (chunks : List (List Nat))

/-- Outcome of `debug.receive_data_tcp` as a function of the connection
result and (for a successful session) its measured duration. -/
def sessionTyped : ConnResult → Nat → List Int × List (List Nat) × Nat
  | .connTimeout, _ => ([], [], 0)
  | .connRefused, _ => ([], [], 0)
  | .connOSError, _ => ([], [], 0)
  | .connected cs, d =>
    ((typedFeedsR initD cs).audio, (typedFeedsR initD cs).imu, d)

/-- Outcome of `network_handler.receive_data_tcp` likewise. -/
def sessionMarker : ConnResult → Nat → List Int × List (List Nat) × Nat
  | .connTimeout, _ => ([], [], 0)
  | .connRefused, _ => ([], [], 0)
  | .connOSError, _ => ([], [], 0)
  | .connected cs, d =>
    ((markerFeeds initM cs).audio, (markerFeeds initM cs).imu, d)

/-! ## Fuel-bounded variants of the two inner loops

Used to state termination: the unbounded `while True` loops complete within
`buffer length + 1` iterations. -/

/-- `typedLoop` running on explicit fuel; `none` = fuel exhausted before the
loop exited. -/
def typedLoopFuel (dec : List Nat → Option (List Nat)) (aLen : Nat) :
    Nat → DState → Option DState
  | 0, _ => none
  | n + 1, st =>
    match typedStep dec aLen st with
    | some s' => typedLoopFuel dec aLen n s'
    | none => some st

/-- `markerLoop` running on explicit fuel; fuel is spent on each pass of the
outer loop. -/
def markerLoopFuel (B : List Nat) :
    Nat → Nat → List Int → List (List Nat) →
      Option (Nat × List Int × List (List Nat))
  | 0, _, _, _ => none
  | n + 1, p, audio, imu =>
    match markerFind B p with
    | none =>
      some ((audioStrides B B.length p audio).1,
        (audioStrides B B.length p audio).2, imu)
    | some m =>
      if m + 4 + IMU_PACKET_SIZE_BYTES ≤ B.length then
        markerLoopFuel B n (m + 4 + IMU_PACKET_SIZE_BYTES)
          (audioStrides B m p audio).2
          (imu ++ [decodeWords ((B.drop (m + 4)).take IMU_PACKET_SIZE_BYTES)])
      else
        some ((audioStrides B m p audio).1, (audioStrides B m p audio).2, imu)

/-! ## Typed-identifier parser: basic step equations -/

theorem typedStep_nil (dec : List Nat → Option (List Nat)) (aLen : Nat)
    (a : List Int) (i : List (List Nat)) :
    typedStep dec aLen ⟨[], a, i⟩ = none := rfl

theorem typedStep_unknown {id0 : Nat} (dec : List Nat → Option (List Nat))
    (aLen : Nat) (rest : List Nat) (a : List Int) (i : List (List Nat))
    (h1 : id0 ≠ 1) (h2 : id0 ≠ 2) :
    typedStep dec aLen ⟨id0 :: rest, a, i⟩ = some ⟨rest, a, i⟩ := by
  unfold typedStep
  simp only [AUDIO_DATA_ID, IMU_DATA_ID]
  rw [if_neg h1, if_neg h2]

theorem typedStep_audio_wait {aLen : Nat} {rest : List Nat}
    (dec : List Nat → Option (List Nat)) (a : List Int) (i : List (List Nat))
    (h : ¬ 1 + 2 * aLen ≤ rest.length + 1) :
    typedStep dec aLen ⟨1 :: rest, a, i⟩ = none := by
  unfold typedStep
  simp only [AUDIO_DATA_ID, List.length_cons]
  norm_num
  omega

theorem typedStep_audio_go {aLen : Nat} {rest : List Nat}
    (dec : List Nat → Option (List Nat)) (a : List Int) (i : List (List Nat))
    (h : 1 + 2 * aLen ≤ rest.length + 1) :
    typedStep dec aLen ⟨1 :: rest, a, i⟩ =
      some ⟨rest.drop (2 * aLen), a ++ decodeAudio16 (rest.take (2 * aLen)), i⟩ := by
  unfold typedStep
  simp only [AUDIO_DATA_ID, List.length_cons]
  norm_num
  refine ⟨h, ?_⟩
  rw [Nat.add_comm 1 (2 * aLen), List.drop_succ_cons]

theorem typedStep_imu_wait {rest : List Nat}
    (dec : List Nat → Option (List Nat)) (aLen : Nat) (a : List Int)
    (i : List (List Nat)) (h : ¬ 29 ≤ rest.length + 1) :
    typedStep dec aLen ⟨2 :: rest, a, i⟩ = none := by
  unfold typedStep
  simp only [AUDIO_DATA_ID, IMU_DATA_ID, expected_imu_packet_size,
    List.length_cons]
  norm_num
  omega

theorem typedStep_imu_ok {rest t : List Nat}
    {dec : List Nat → Option (List Nat)} (aLen : Nat) (a : List Int)
    (i : List (List Nat)) (h : 29 ≤ rest.length + 1)
    (hd : dec (rest.take 28) = some t) :
    typedStep dec aLen ⟨2 :: rest, a, i⟩ = some ⟨rest.drop 28, a, i ++ [t]⟩ := by
  unfold typedStep
  simp only [AUDIO_DATA_ID, IMU_DATA_ID, expected_imu_packet_size,
    List.length_cons]
  norm_num
  exact ⟨h, by rw [hd]⟩

theorem typedStep_imu_err {rest : List Nat}
    {dec : List Nat → Option (List Nat)} (aLen : Nat) (a : List Int)
    (i : List (List Nat)) (h : 29 ≤ rest.length + 1)
    (hd : dec (rest.take 28) = none) :
    typedStep dec aLen ⟨2 :: rest, a, i⟩ = some ⟨rest, a, i⟩ := by
  unfold typedStep
  simp only [AUDIO_DATA_ID, IMU_DATA_ID, expected_imu_packet_size,
    List.length_cons]
  norm_num
  exact ⟨h, by rw [hd]⟩

/-! ## Typed-identifier parser: chunk-boundary invariance -/

/-- A consuming step is insensitive to bytes appended after the buffer. -/
theorem typedStep_append {dec : List Nat → Option (List Nat)} {aLen : Nat}
    {b : List Nat} {a : List Int} {i : List (List Nat)} {s' : DState}
    (extra : List Nat) (h : typedStep dec aLen ⟨b, a, i⟩ = some s') :
    typedStep dec aLen ⟨b ++ extra, a, i⟩ =
      some ⟨s'.buffer ++ extra, s'.audio, s'.imu⟩ := by
  cases b with
  | nil => rw [typedStep_nil] at h; cases h
  | cons id0 rest =>
    by_cases h1 : id0 = 1
    · subst h1
      by_cases h2 : 1 + 2 * aLen ≤ rest.length + 1
      · rw [typedStep_audio_go dec a i h2] at h
        cases h
        rw [List.cons_append,
          typedStep_audio_go dec a i (by simp; omega)]
        have h2' : 2 * aLen ≤ rest.length := by omega
        rw [List.take_append_of_le_length h2',
          List.drop_append_of_le_length h2']
      · rw [typedStep_audio_wait dec a i h2] at h; cases h
    · by_cases h2 : id0 = 2
      · subst h2
        by_cases h3 : 29 ≤ rest.length + 1
        · have h3' : 28 ≤ rest.length := by omega
          cases hd : dec (rest.take 28) with
          | some t =>
            rw [typedStep_imu_ok aLen a i h3 hd] at h
            cases h
            rw [List.cons_append,
              typedStep_imu_ok aLen a i (by simp; omega)
                (by rw [List.take_append_of_le_length h3']; exact hd)]
            rw [List.drop_append_of_le_length h3']
          | none =>
            rw [typedStep_imu_err aLen a i h3 hd] at h
            cases h
            rw [List.cons_append,
              typedStep_imu_err aLen a i (by simp; omega)
                (by rw [List.take_append_of_le_length h3']; exact hd)]
        · rw [typedStep_imu_wait dec aLen a i h3] at h; cases h
      · rw [typedStep_unknown dec aLen rest a i h1 h2] at h
        cases h
        rw [List.cons_append, typedStep_unknown dec aLen (rest ++ extra) a i h1 h2]

/-- Parsing `b ++ extra` in one pass equals parsing `b` to quiescence and
then parsing on with `extra` appended: the loop never reads past a record
boundary it cannot complete. -/
theorem typedLoop_append (dec : List Nat → Option (List Nat)) (aLen : Nat) :
    ∀ (n : Nat) (b : List Nat), b.length ≤ n → ∀ (a : List Int)
      (i : List (List Nat)) (extra : List Nat),
    typedLoop dec aLen ⟨b ++ extra, a, i⟩ =
      typedLoop dec aLen ⟨(typedLoop dec aLen ⟨b, a, i⟩).buffer ++ extra,
        (typedLoop dec aLen ⟨b, a, i⟩).audio,
        (typedLoop dec aLen ⟨b, a, i⟩).imu⟩ := by
  intro n
  induction n with
  | zero =>
    intro b hb a i extra
    have : b = [] := List.length_eq_zero.mp (Nat.le_zero.mp hb)
    subst this
    rw [typedLoop_none (typedStep_nil dec aLen a i)]
  | succ n ih =>
    intro b hb a i extra
    cases hstep : typedStep dec aLen ⟨b, a, i⟩ with
    | none => rw [typedLoop_none hstep]
    | some s' =>
      rw [typedLoop_some (typedStep_append extra hstep), typedLoop_some hstep]
      have hlt : s'.buffer.length < b.length := typedStep_length_lt hstep
      have := ih s'.buffer (by omega) s'.audio s'.imu extra
      simpa using this

/-- Feeding a chunk sequence equals feeding its concatenation at once. -/
theorem typedFeeds_flatten (dec : List Nat → Option (List Nat)) (aLen : Nat) :
    ∀ (cs : List (List Nat)) (b : List Nat) (a : List Int)
      (i : List (List Nat)),
    typedFeeds dec aLen (typedLoop dec aLen ⟨b, a, i⟩) cs =
      typedLoop dec aLen ⟨b ++ cs.flatten, a, i⟩ := by
  intro cs
  induction cs with
  | nil =>
    intro b a i
    simp only [typedFeeds, List.foldl_nil, List.flatten_nil, List.append_nil]
  | cons c cs ih =>
    intro b a i
    simp only [typedFeeds, List.foldl_cons]
    have step1 : typedFeed dec aLen (typedLoop dec aLen ⟨b, a, i⟩) c =
        typedLoop dec aLen ⟨b ++ c, a, i⟩ := by
      unfold typedFeed
      exact (typedLoop_append dec aLen b.length b le_rfl a i c).symm
    rw [step1]
    have := ih (b ++ c) a i
    simp only [typedFeeds] at this
    rw [this, List.flatten_cons, List.append_assoc]

/-- The initial state is quiescent. -/
theorem initD_loop (dec : List Nat → Option (List Nat)) (aLen : Nat) :
    initD = typedLoop dec aLen ⟨[], [], []⟩ :=
  (typedLoop_none (typedStep_nil dec aLen [] [])).symm

/-- Feeding any chunk sequence from a fresh state is determined by the
concatenated byte stream alone. -/
theorem typedFeeds_eq_flatten (dec : List Nat → Option (List Nat)) (aLen : Nat)
    (cs : List (List Nat)) :
    typedFeeds dec aLen initD cs = typedLoop dec aLen ⟨cs.flatten, [], []⟩ := by
  rw [initD_loop dec aLen, typedFeeds_flatten]
  simp

/-! ## Typed-identifier parser: complete consumption of whole records -/

/-- Parsing a buffer holding exactly a whole number of well-formed records
consumes everything and decodes each record in order. -/
theorem typedLoop_records (aLen : Nat) :
    ∀ (rs : List TRec) (a : List Int) (i : List (List Nat)),
      (∀ r ∈ rs, r.wf aLen) →
    typedLoop decodeImuTyped aLen ⟨tEnc rs, a, i⟩ =
      ⟨[], a ++ tAudioOuts rs, i ++ tImuOuts rs⟩ := by
  intro rs
  induction rs with
  | nil =>
    intro a i _
    simp only [tEnc, tAudioOuts, tImuOuts, List.map_nil, List.flatten_nil,
      List.append_nil]
    exact typedLoop_none (typedStep_nil decodeImuTyped aLen a i)
  | cons r rs ih =>
    intro a i hwf
    have hr : r.wf aLen := hwf r (List.mem_cons_self r rs)
    have hrs : ∀ x ∈ rs, x.wf aLen := fun x hx => hwf x (List.mem_cons_of_mem r hx)
    cases r with
    | taud p =>
      have hp : p.length = 2 * aLen := hr
      have henc : tEnc (TRec.taud p :: rs) = 1 :: (p ++ tEnc rs) := by
        simp [tEnc, TRec.enc, AUDIO_DATA_ID]
      rw [henc]
      rw [typedLoop_some (typedStep_audio_go decodeImuTyped a i
        (by simp only [List.length_append, hp]; omega))]
      rw [List.take_left' hp, List.drop_left' hp]
      rw [ih (a ++ decodeAudio16 p) i hrs]
      simp [tAudioOuts, tImuOuts, TRec.audioOut, TRec.imuOut]
    | timu p =>
      have hp : p.length = 28 := hr
      have henc : tEnc (TRec.timu p :: rs) = 2 :: (p ++ tEnc rs) := by
        simp [tEnc, TRec.enc, IMU_DATA_ID]
      rw [henc]
      have hd : decodeImuTyped ((p ++ tEnc rs).take 28) = some (decodeWords p) := by
        rw [List.take_left' hp]
        unfold decodeImuTyped
        rw [if_pos hp]
      rw [typedLoop_some (typedStep_imu_ok aLen a i
        (by simp only [List.length_append, hp]; omega) hd)]
      rw [List.drop_left' hp]
      rw [ih a (i ++ [decodeWords p]) hrs]
      simp [tAudioOuts, tImuOuts, TRec.audioOut, TRec.imuOut]

/-! ## Buffer discipline of the typed parser (append at tail, drop a prefix) -/

theorem typedStep_buffer {dec : List Nat → Option (List Nat)} {aLen : Nat}
    {st s' : DState} (h : typedStep dec aLen st = some s') :
    ∃ k, 1 ≤ k ∧ k ≤ st.buffer.length ∧ s'.buffer = st.buffer.drop k := by
  obtain ⟨b, a, i⟩ := st
  cases b with
  | nil => rw [typedStep_nil] at h; cases h
  | cons id0 rest =>
    simp only
    by_cases h1 : id0 = 1
    · subst h1
      by_cases h2 : 1 + 2 * aLen ≤ rest.length + 1
      · rw [typedStep_audio_go dec a i h2] at h
        cases h
        refine ⟨1 + 2 * aLen, by omega, by simp; omega, ?_⟩
        rw [Nat.add_comm 1 (2 * aLen), List.drop_succ_cons]
      · rw [typedStep_audio_wait dec a i h2] at h; cases h
    · by_cases h2 : id0 = 2
      · subst h2
        by_cases h3 : 29 ≤ rest.length + 1
        · cases hd : dec (rest.take 28) with
          | some t =>
            rw [typedStep_imu_ok aLen a i h3 hd] at h
            cases h
            exact ⟨29, by omega, by simp; omega, rfl⟩
          | none =>
            rw [typedStep_imu_err aLen a i h3 hd] at h
            cases h
            exact ⟨1, le_rfl, by simp, rfl⟩
        · rw [typedStep_imu_wait dec aLen a i h3] at h; cases h
      · rw [typedStep_unknown dec aLen rest a i h1 h2] at h
        cases h
        exact ⟨1, le_rfl, by simp, rfl⟩

theorem typedLoop_buffer (dec : List Nat → Option (List Nat)) (aLen : Nat) :
    ∀ (n : Nat) (st : DState), st.buffer.length ≤ n →
      ∃ k, k ≤ st.buffer.length ∧
        (typedLoop dec aLen st).buffer = st.buffer.drop k := by
  intro n
  induction n with
  | zero =>
    intro st hst
    obtain ⟨b, a, i⟩ := st
    have : b = [] := List.length_eq_zero.mp (Nat.le_zero.mp hst)
    subst this
    rw [typedLoop_none (typedStep_nil dec aLen a i)]
    exact ⟨0, by simp, rfl⟩
  | succ n ih =>
    intro st hst
    cases hstep : typedStep dec aLen st with
    | none =>
      rw [typedLoop_none hstep]
      exact ⟨0, by simp, rfl⟩
    | some s' =>
      rw [typedLoop_some hstep]
      obtain ⟨k1, hk1, hk1le, hb1⟩ := typedStep_buffer hstep
      have hlt : s'.buffer.length < st.buffer.length := typedStep_length_lt hstep
      obtain ⟨k2, hk2le, hb2⟩ := ih s' (by omega)
      refine ⟨k1 + k2, ?_, ?_⟩
      · rw [hb1, List.length_drop] at hk2le; omega
      · rw [hb2, hb1, List.drop_drop]

/-! ## Marker search: specification of `findFrom` / `markerFind` -/

theorem isMarkerAt_bound {B : List Nat} {i : Nat} (h : isMarkerAt B i) :
    i + 4 ≤ B.length := by
  unfold isMarkerAt IMU_MARKER at h
  have hlen := congrArg List.length h
  simp only [List.length_take, List.length_drop, List.length_cons,
    List.length_nil] at hlen
  omega

theorem isMarkerAt_cons_succ {b : Nat} {t : List Nat} {k : Nat} :
    isMarkerAt (b :: t) (k + 1) ↔ isMarkerAt t k := by
  simp [isMarkerAt, List.drop_succ_cons]

theorem isMarkerAt_drop {B : List Nat} {p j : Nat} :
    isMarkerAt (B.drop p) j ↔ isMarkerAt B (p + j) := by
  unfold isMarkerAt
  rw [List.drop_drop]

theorem findFrom_some : ∀ {l : List Nat} {j : Nat}, findFrom l = some j →
    isMarkerAt l j ∧ ∀ k < j, ¬ isMarkerAt l k := by
  intro l
  induction l with
  | nil => intro j h; cases h
  | cons b t ih =>
    intro j h
    unfold findFrom at h
    by_cases hc : (b :: t).take 4 = IMU_MARKER
    · rw [if_pos hc] at h
      cases h
      exact ⟨by simpa [isMarkerAt] using hc, by omega⟩
    · rw [if_neg hc] at h
      cases hf : findFrom t with
      | none => rw [hf] at h; cases h
      | some j' =>
        rw [hf] at h
        simp at h
        subst h
        obtain ⟨hm, hmin⟩ := ih hf
        refine ⟨isMarkerAt_cons_succ.mpr hm, ?_⟩
        intro k hk
        cases k with
        | zero => simpa [isMarkerAt] using hc
        | succ k' =>
          rw [isMarkerAt_cons_succ]
          exact hmin k' (by omega)

theorem findFrom_none : ∀ {l : List Nat}, findFrom l = none →
    ∀ k, ¬ isMarkerAt l k := by
  intro l
  induction l with
  | nil =>
    intro _ k
    simp [isMarkerAt, IMU_MARKER]
  | cons b t ih =>
    intro h k
    unfold findFrom at h
    by_cases hc : (b :: t).take 4 = IMU_MARKER
    · rw [if_pos hc] at h; cases h
    · rw [if_neg hc] at h
      cases hf : findFrom t with
      | some j' => rw [hf] at h; cases h
      | none =>
        cases k with
        | zero => simpa [isMarkerAt] using hc
        | succ k' => rw [isMarkerAt_cons_succ]; exact ih hf k'

theorem findFrom_of : ∀ {l : List Nat} {j : Nat}, isMarkerAt l j →
    (∀ k < j, ¬ isMarkerAt l k) → findFrom l = some j := by
  intro l
  induction l with
  | nil =>
    intro j hm _
    exfalso
    have := isMarkerAt_bound hm
    simp only [List.length_nil] at this
    omega
  | cons b t ih =>
    intro j hm hmin
    unfold findFrom
    cases j with
    | zero =>
      rw [if_pos (by simpa [isMarkerAt] using hm)]
    | succ j' =>
      rw [if_neg (by simpa [isMarkerAt] using hmin 0 (by omega))]
      have h2 : findFrom t = some j' := by
        apply ih (isMarkerAt_cons_succ.mp hm)
        intro k hk
        have hh := hmin (k + 1) (by omega)
        rw [isMarkerAt_cons_succ] at hh
        exact hh
      rw [h2]
      rfl

theorem markerFind_some {B : List Nat} {p m : Nat}
    (h : markerFind B p = some m) :
    p ≤ m ∧ isMarkerAt B m ∧ ∀ k, p ≤ k → k < m → ¬ isMarkerAt B k := by
  unfold markerFind at h
  cases hf : findFrom (B.drop p) with
  | none => rw [hf] at h; cases h
  | some j =>
    rw [hf] at h
    simp at h
    subst h
    obtain ⟨hm, hmin⟩ := findFrom_some hf
    rw [isMarkerAt_drop] at hm
    refine ⟨by omega, by rwa [Nat.add_comm], ?_⟩
    intro k hpk hkm
    have := hmin (k - p) (by omega)
    rw [isMarkerAt_drop] at this
    have hke : p + (k - p) = k := by omega
    rwa [hke] at this

theorem markerFind_none {B : List Nat} {p : Nat} (h : markerFind B p = none) :
    ∀ k, p ≤ k → ¬ isMarkerAt B k := by
  intro k hpk
  unfold markerFind at h
  cases hf : findFrom (B.drop p) with
  | some j => rw [hf] at h; cases h
  | none =>
    have := findFrom_none hf (k - p)
    rw [isMarkerAt_drop] at this
    have hke : p + (k - p) = k := by omega
    rwa [hke] at this

theorem markerFind_of {B : List Nat} {p m : Nat} (hpm : p ≤ m)
    (hm : isMarkerAt B m) (hmin : ∀ k, p ≤ k → k < m → ¬ isMarkerAt B k) :
    markerFind B p = some m := by
  unfold markerFind
  have hm' : isMarkerAt (B.drop p) (m - p) := by
    rw [isMarkerAt_drop]
    have : p + (m - p) = m := by omega
    rwa [this]
  have hmin' : ∀ k < m - p, ¬ isMarkerAt (B.drop p) k := by
    intro k hk
    rw [isMarkerAt_drop]
    exact hmin (p + k) (by omega) (by omega)
  rw [findFrom_of hm' hmin']
  simp
  omega

theorem markerFind_none_of {B : List Nat} {p : Nat}
    (h : ∀ k, p ≤ k → ¬ isMarkerAt B k) : markerFind B p = none := by
  unfold markerFind
  cases hf : findFrom (B.drop p) with
  | none => rfl
  | some j =>
    exfalso
    have := (findFrom_some hf).1
    rw [isMarkerAt_drop] at this
    exact h (p + j) (by omega) this

/-! ## Bounds and buffer discipline of the marker parser -/

theorem audioStrides_le (B : List Nat) :
    ∀ (n : Nat) (limit p : Nat) (acc : List Int), limit - p ≤ n →
      p ≤ limit → (audioStrides B limit p acc).1 ≤ limit := by
  intro n
  induction n with
  | zero =>
    intro limit p acc h1 h2
    rw [audioStrides_stop (by omega)]
    exact h2
  | succ n ih =>
    intro limit p acc h1 h2
    by_cases hc : p + 4 ≤ limit
    · rw [audioStrides_go hc]
      exact ih limit (p + 4) _ (by omega) (by omega)
    · rw [audioStrides_stop hc]
      exact h2

theorem markerLoop_le (B : List Nat) :
    ∀ (n : Nat) (p : Nat) (a : List Int) (i : List (List Nat)),
      B.length - p ≤ n → p ≤ B.length →
      (markerLoop B p a i).1 ≤ B.length := by
  intro n
  induction n with
  | zero =>
    intro p a i h1 h2
    cases hf : markerFind B p with
    | none =>
      rw [markerLoop_none hf]
      exact audioStrides_le B (B.length - p) B.length p a (by omega) h2
    | some m =>
      obtain ⟨hpm, hm, -⟩ := markerFind_some hf
      have hb := isMarkerAt_bound hm
      by_cases h4 : m + 4 + IMU_PACKET_SIZE_BYTES ≤ B.length
      · exfalso
        simp only [IMU_PACKET_SIZE_BYTES] at h4
        omega
      · rw [markerLoop_some_wait hf h4]
        exact le_trans (audioStrides_le B (m - p) m p a (by omega) hpm) (by omega)
  | succ n ih =>
    intro p a i h1 h2
    cases hf : markerFind B p with
    | none =>
      rw [markerLoop_none hf]
      exact audioStrides_le B (B.length - p) B.length p a (by omega) h2
    | some m =>
      obtain ⟨hpm, hm, -⟩ := markerFind_some hf
      have hb := isMarkerAt_bound hm
      by_cases h4 : m + 4 + IMU_PACKET_SIZE_BYTES ≤ B.length
      · rw [markerLoop_some_full hf h4]
        simp only [IMU_PACKET_SIZE_BYTES] at h4 ⊢
        exact ih (m + 4 + 24) _ _ (by omega) (by omega)
      · rw [markerLoop_some_wait hf h4]
        exact le_trans (audioStrides_le B (m - p) m p a (by omega) hpm) (by omega)

/-! ## Fuel suffices: the inner loops terminate -/

theorem typedLoopFuel_eq (dec : List Nat → Option (List Nat)) (aLen : Nat) :
    ∀ (n : Nat) (st : DState), st.buffer.length < n →
      typedLoopFuel dec aLen n st = some (typedLoop dec aLen st) := by
  intro n
  induction n with
  | zero => intro st h; omega
  | succ n ih =>
    intro st h
    unfold typedLoopFuel
    cases hstep : typedStep dec aLen st with
    | none => rw [typedLoop_none hstep]
    | some s' =>
      have := typedStep_length_lt hstep
      rw [typedLoop_some hstep]
      exact ih s' (by omega)

theorem markerLoopFuel_eq (B : List Nat) :
    ∀ (n : Nat) (p : Nat) (a : List Int) (i : List (List Nat)),
      B.length - p < n →
      markerLoopFuel B n p a i = some (markerLoop B p a i) := by
  intro n
  induction n with
  | zero => intro p a i h; omega
  | succ n ih =>
    intro p a i h
    unfold markerLoopFuel
    split
    · rename_i heq
      rw [markerLoop_none heq]
    · rename_i m heq
      have hpm := markerFind_ge heq
      split
      · rename_i h4
        rw [markerLoop_some_full heq h4]
        exact ih _ _ _ (by simp only [IMU_PACKET_SIZE_BYTES] at h4; omega)
      · rename_i h4
        rw [markerLoop_some_wait heq h4]

/-! ## Marker-format records: encoding lemmas -/

theorem mEnc_nil : mEnc [] = [] := rfl

theorem mEnc_cons (r : MRec) (rs : List MRec) :
    mEnc (r :: rs) = r.enc ++ mEnc rs := by
  simp [mEnc]

theorem mEnc_append (xs ys : List MRec) :
    mEnc (xs ++ ys) = mEnc xs ++ mEnc ys := by
  simp [mEnc]

theorem MRec.enc_length_maud {p : List Nat} (h : (MRec.maud p).wf) :
    (MRec.maud p).enc.length = 4 := by
  have hp : p.length = 4 := h
  simp [MRec.enc, hp]

theorem MRec.enc_length_mimu {q : List Nat} (h : (MRec.mimu q).wf) :
    (MRec.mimu q).enc.length = 28 := by
  have hq : q.length = 24 := h
  simp [MRec.enc, IMU_MARKER, hq]

theorem mEnc_length_audio :
    ∀ (auds : List MRec), (∀ r ∈ auds, r.isImu = false) →
      (∀ r ∈ auds, r.wf) → (mEnc auds).length = 4 * auds.length := by
  intro auds
  induction auds with
  | nil => intro _ _; simp [mEnc]
  | cons r rest ih =>
    intro hall hwf
    cases r with
    | mimu q =>
      have := hall (MRec.mimu q) (List.mem_cons_self _ _)
      simp [MRec.isImu] at this
    | maud p =>
      rw [mEnc_cons]
      simp only [List.length_append, List.length_cons]
      rw [MRec.enc_length_maud (hwf _ (List.mem_cons_self _ _)),
        ih (fun r hr => hall r (List.mem_cons_of_mem _ hr))
          (fun r hr => hwf r (List.mem_cons_of_mem _ hr))]
      ring

theorem mAudioOuts_nil : mAudioOuts [] = [] := rfl

theorem mAudioOuts_cons (r : MRec) (rs : List MRec) :
    mAudioOuts (r :: rs) = r.audioOut ++ mAudioOuts rs := by
  simp [mAudioOuts]

theorem mAudioOuts_append (xs ys : List MRec) :
    mAudioOuts (xs ++ ys) = mAudioOuts xs ++ mAudioOuts ys := by
  simp [mAudioOuts]

theorem mImuOuts_nil : mImuOuts [] = [] := rfl

theorem mImuOuts_cons (r : MRec) (rs : List MRec) :
    mImuOuts (r :: rs) = r.imuOut ++ mImuOuts rs := by
  simp [mImuOuts]

theorem mImuOuts_append (xs ys : List MRec) :
    mImuOuts (xs ++ ys) = mImuOuts xs ++ mImuOuts ys := by
  simp [mImuOuts]

theorem mAudioOuts_all_audio :
    ∀ (auds : List MRec), (∀ r ∈ auds, r.isImu = false) →
      (auds.map MRec.enc).map decodeI32l = mAudioOuts auds := by
  intro auds
  induction auds with
  | nil => intro _; rfl
  | cons r rest ih =>
    intro hall
    cases r with
    | mimu q =>
      have := hall (MRec.mimu q) (List.mem_cons_self _ _)
      simp [MRec.isImu] at this
    | maud p =>
      rw [List.map_cons, List.map_cons, mAudioOuts_cons]
      rw [ih (fun r hr => hall r (List.mem_cons_of_mem _ hr))]
      rfl

theorem mImuOuts_all_audio :
    ∀ (auds : List MRec), (∀ r ∈ auds, r.isImu = false) →
      mImuOuts auds = [] := by
  intro auds
  induction auds with
  | nil => intro _; rfl
  | cons r rest ih =>
    intro hall
    cases r with
    | mimu q =>
      have := hall (MRec.mimu q) (List.mem_cons_self _ _)
      simp [MRec.isImu] at this
    | maud p =>
      rw [mImuOuts_cons, ih (fun r hr => hall r (List.mem_cons_of_mem _ hr))]
      rfl

/-! ## `imuStarts`: positions of IMU markers in an encoded stream -/

theorem imuStarts_append :
    ∀ (xs ys : List MRec) (off : Nat),
      imuStarts (xs ++ ys) off =
        imuStarts xs off ++ imuStarts ys (off + (mEnc xs).length) := by
  intro xs
  induction xs with
  | nil => intro ys off; simp [imuStarts, mEnc]
  | cons r xs ih =>
    intro ys off
    simp only [List.cons_append, imuStarts, mEnc_cons, List.length_append,
      List.append_eq]
    rw [ih ys (off + r.enc.length)]
    simp [List.append_assoc, Nat.add_assoc]

theorem imuStarts_all_audio :
    ∀ (auds : List MRec) (off : Nat), (∀ r ∈ auds, r.isImu = false) →
      imuStarts auds off = [] := by
  intro auds
  induction auds with
  | nil => intro off _; rfl
  | cons r rest ih =>
    intro off hall
    cases r with
    | mimu q =>
      have := hall (MRec.mimu q) (List.mem_cons_self _ _)
      simp [MRec.isImu] at this
    | maud p =>
      simp only [imuStarts, MRec.isImu, if_neg]
      rw [ih _ (fun r hr => hall r (List.mem_cons_of_mem _ hr))]
      simp

theorem imuStarts_mem_bounds :
    ∀ (rs : List MRec) (off j : Nat), j ∈ imuStarts rs off →
      off ≤ j ∧ j + 4 ≤ off + (mEnc rs).length := by
  intro rs
  induction rs with
  | nil => intro off j h; simp [imuStarts] at h
  | cons r rest ih =>
    intro off j h
    simp only [imuStarts, List.mem_append] at h
    have hposr : 4 ≤ r.enc.length ∨ r.isImu = false := by
      cases r with
      | maud p => right; rfl
      | mimu q => left; simp [MRec.enc, IMU_MARKER]
    cases h with
    | inl h =>
      cases hri : r.isImu with
      | false => rw [hri] at h; simp at h
      | true =>
        rw [hri] at h
        simp at h
        subst h
        rcases hposr with h4 | habs
        · rw [mEnc_cons]
          simp only [List.length_append]
          omega
        · rw [hri] at habs; cases habs
    | inr h =>
      obtain ⟨h1, h2⟩ := ih (off + r.enc.length) j h
      rw [mEnc_cons]
      simp only [List.length_append]
      constructor <;> omega

theorem isMarkerAt_of_imuStarts :
    ∀ (rs : List MRec) (off j : Nat) (B T : List Nat),
      B.drop off = mEnc rs ++ T → j ∈ imuStarts rs off → isMarkerAt B j := by
  intro rs
  induction rs with
  | nil => intro off j B T _ h; simp [imuStarts] at h
  | cons r rest ih =>
    intro off j B T hdrop h
    simp only [imuStarts, List.mem_append] at h
    cases h with
    | inl h =>
      cases hri : r.isImu with
      | false => rw [hri] at h; simp at h
      | true =>
        rw [hri] at h
        simp at h
        subst h
        cases r with
        | maud p => simp [MRec.isImu] at hri
        | mimu q =>
          unfold isMarkerAt
          rw [hdrop, mEnc_cons]
          simp only [MRec.enc, List.append_assoc]
          rw [List.take_left' (by simp [IMU_MARKER])]
    | inr h =>
      refine ih (off + r.enc.length) j B (T) ?_ h
      rw [← List.drop_drop, hdrop, mEnc_cons, List.append_assoc,
        List.drop_left]

/-! ## Audio strides over a run of whole audio records -/

theorem audioStrides_groups :
    ∀ (gs : List (List Nat)) (B : List Nat) (p limit : Nat) (acc : List Int)
      (T : List Nat),
      (∀ g ∈ gs, g.length = 4) →
      B.drop p = gs.flatten ++ T →
      p + 4 * gs.length ≤ limit →
      limit < p + 4 * gs.length + 4 →
      audioStrides B limit p acc = (p + 4 * gs.length, acc ++ gs.map decodeI32l) := by
  intro gs
  induction gs with
  | nil =>
    intro B p limit acc T _ _ h1 h2
    rw [audioStrides_stop (by simp at h1 h2 ⊢; omega)]
    simp
  | cons g gs ih =>
    intro B p limit acc T hg hdrop h1 h2
    have hgl : g.length = 4 := hg g (List.mem_cons_self _ _)
    have hflat : B.drop p = g ++ (gs.flatten ++ T) := by
      rw [hdrop, List.flatten_cons, List.append_assoc]
    have hsb : (B.drop p).take 4 = g := by
      rw [hflat]
      exact List.take_left' hgl
    have hnext : B.drop (p + 4) = gs.flatten ++ T := by
      rw [← List.drop_drop, hflat]
      exact List.drop_left' hgl
    rw [audioStrides_go (by simp only [List.length_cons] at h1; omega)]
    rw [hsb, if_pos hgl]
    rw [ih B (p + 4) limit (acc ++ [decodeI32l g]) T
      (fun x hx => hg x (List.mem_cons_of_mem _ hx)) hnext
      (by simp only [List.length_cons] at h1; omega)
      (by simp only [List.length_cons] at h2; omega)]
    simp only [Prod.mk.injEq, List.map_cons]
    constructor
    · simp only [List.length_cons]; omega
    · simp

/-- Every list of marker-format records is an audio run, or an audio run
followed by an IMU record and a remainder. -/
theorem rec_split :
    ∀ rs : List MRec, (∀ r ∈ rs, r.isImu = false) ∨
      ∃ auds q rest, rs = auds ++ MRec.mimu q :: rest ∧
        ∀ r ∈ auds, r.isImu = false := by
  intro rs
  induction rs with
  | nil => left; simp
  | cons r rest ih =>
    cases r with
    | mimu q => right; exact ⟨[], q, rest, by simp, by simp⟩
    | maud p =>
      cases ih with
      | inl h =>
        left
        intro x hx
        rcases List.mem_cons.mp hx with hx | hx
        · subst hx; rfl
        · exact h x hx
      | inr h =>
        obtain ⟨auds, q, rest', heq, ha⟩ := h
        right
        refine ⟨MRec.maud p :: auds, q, rest', by rw [heq]; rfl, ?_⟩
        intro x hx
        rcases List.mem_cons.mp hx with hx | hx
        · subst hx; rfl
        · exact ha x hx

/-! ## The marker pass over clean streams -/

theorem markerLoop_clean_audio
    (auds done : List MRec) (T : List Nat) (a : List Int) (i : List (List Nat))
    (hall : ∀ r ∈ auds, r.isImu = false)
    (hwf : ∀ r ∈ auds, r.wf)
    (hT : T.length ≤ 3 ∨ (T.take 4 = IMU_MARKER ∧ T.length < 28))
    (hcl : ∀ j, isMarkerAt (mEnc (done ++ auds) ++ T) j →
      j ∈ imuStarts (done ++ auds) 0 ∨ j = (mEnc (done ++ auds)).length) :
    markerLoop (mEnc (done ++ auds) ++ T) (mEnc done).length a i =
      ((mEnc (done ++ auds)).length, a ++ mAudioOuts auds, i ++ mImuOuts auds) := by
  set B := mEnc (done ++ auds) ++ T with hB
  set p := (mEnc done).length with hp
  set L := (mEnc (done ++ auds)).length with hLdef
  have hLa : (mEnc auds).length = 4 * auds.length := mEnc_length_audio auds hall hwf
  have hL : L = p + 4 * auds.length := by
    rw [hLdef, mEnc_append, List.length_append, hLa]
  have hBlen : B.length = L + T.length := by
    rw [hB, List.length_append]
  have hdropP : B.drop p = mEnc auds ++ T := by
    rw [hB, mEnc_append, List.append_assoc, List.drop_left]
  have hdropL : B.drop L = T := by
    rw [hB, List.drop_left]
  have hgl : ∀ g ∈ auds.map MRec.enc, g.length = 4 := by
    intro g hg
    obtain ⟨r, hr, rfl⟩ := List.mem_map.mp hg
    cases r with
    | maud q => exact MRec.enc_length_maud (hwf _ hr)
    | mimu q =>
      have := hall _ hr
      simp [MRec.isImu] at this
  have hnomid : ∀ k, p ≤ k → isMarkerAt B k → k = L := by
    intro k hk hm
    rcases hcl k hm with hmem | hend
    · rw [imuStarts_append] at hmem
      rcases List.mem_append.mp hmem with hd | ha
      · have := (imuStarts_mem_bounds done 0 k hd).2
        omega
      · rw [imuStarts_all_audio auds _ hall] at ha
        simp at ha
    · exact hend
  have hmImu : mImuOuts auds = [] := mImuOuts_all_audio auds hall
  have houts : (auds.map MRec.enc).map decodeI32l = mAudioOuts auds :=
    mAudioOuts_all_audio auds hall
  rcases hT with h3 | ⟨hTm, hTlen⟩
  · have hfind : markerFind B p = none := by
      apply markerFind_none_of
      intro k hk hm
      have hkL := hnomid k hk hm
      subst hkL
      have := isMarkerAt_bound hm
      omega
    rw [markerLoop_none hfind]
    rw [audioStrides_groups (auds.map MRec.enc) B p B.length a T hgl
      (by rw [hdropP]; rfl)
      (by simp only [List.length_map]; omega)
      (by simp only [List.length_map]; omega)]
    simp only [List.length_map, houts, hmImu, List.append_nil]
    rw [hL]
  · have hmL : isMarkerAt B L := by
      unfold isMarkerAt
      rw [hdropL, hTm]
    have hfind : markerFind B p = some L := by
      apply markerFind_of (by omega) hmL
      intro k hk hkL hm
      exact absurd (hnomid k hk hm) (by omega)
    have h4 : ¬ (L + 4 + IMU_PACKET_SIZE_BYTES ≤ B.length) := by
      simp only [IMU_PACKET_SIZE_BYTES]
      omega
    rw [markerLoop_some_wait hfind h4]
    rw [audioStrides_groups (auds.map MRec.enc) B p L a (mEnc [] ++ T) hgl
      (by rw [hdropP]; rfl)
      (by simp only [List.length_map]; omega)
      (by simp only [List.length_map]; omega)]
    simp only [List.length_map, houts, hmImu, List.append_nil]
    rw [hL]

/-- One pass of the marker loop over a buffer holding a clean run of whole
records followed by an inert tail consumes exactly the records, decoding
each in order, and leaves the tail. -/
theorem markerLoop_clean :
    ∀ (n : Nat) (rs done : List MRec) (T : List Nat) (a : List Int)
      (i : List (List Nat)),
      rs.length ≤ n →
      (∀ r ∈ rs, r.wf) →
      (T.length ≤ 3 ∨ (T.take 4 = IMU_MARKER ∧ T.length < 28)) →
      (∀ j, isMarkerAt (mEnc (done ++ rs) ++ T) j →
        j ∈ imuStarts (done ++ rs) 0 ∨ j = (mEnc (done ++ rs)).length) →
      markerLoop (mEnc (done ++ rs) ++ T) (mEnc done).length a i =
        ((mEnc (done ++ rs)).length, a ++ mAudioOuts rs, i ++ mImuOuts rs) := by
  intro n
  induction n with
  | zero =>
    intro rs done T a i hn hwf hT hcl
    have hrs : rs = [] := List.length_eq_zero.mp (Nat.le_zero.mp hn)
    subst hrs
    exact markerLoop_clean_audio [] done T a i (by simp) (by simp) hT hcl
  | succ n ih =>
    intro rs done T a i hn hwf hT hcl
    rcases rec_split rs with hall | ⟨auds, q, rest, hrs, hall⟩
    · exact markerLoop_clean_audio rs done T a i hall hwf hT hcl
    · subst hrs
      have hwfa : ∀ r ∈ auds, r.wf := fun r hr =>
        hwf r (List.mem_append.mpr (Or.inl hr))
      have hwfq : (MRec.mimu q).wf :=
        hwf _ (List.mem_append.mpr (Or.inr (List.mem_cons_self _ _)))
      have hqlen : q.length = 24 := hwfq
      have hwfrest : ∀ r ∈ rest, r.wf := fun r hr =>
        hwf r (List.mem_append.mpr (Or.inr (List.mem_cons_of_mem _ hr)))
      set B := mEnc (done ++ (auds ++ MRec.mimu q :: rest)) ++ T with hB
      set p := (mEnc done).length with hp
      have hLa : (mEnc auds).length = 4 * auds.length :=
        mEnc_length_audio auds hall hwfa
      set m := p + 4 * auds.length with hm
      have hq28 : (MRec.mimu q).enc.length = 28 := MRec.enc_length_mimu hwfq
      have hLtot : (mEnc (done ++ (auds ++ MRec.mimu q :: rest))).length =
          m + 28 + (mEnc rest).length := by
        rw [mEnc_append, mEnc_append, mEnc_cons]
        simp only [List.length_append, hLa, hq28]
        omega
      have hBlen : B.length = m + 28 + (mEnc rest).length + T.length := by
        rw [hB, List.length_append, hLtot]
      have hdropP : B.drop p = mEnc auds ++ (mEnc (MRec.mimu q :: rest) ++ T) := by
        rw [hB, mEnc_append, mEnc_append, List.append_assoc, List.append_assoc,
          List.drop_left]
      have hdropM : B.drop m = mEnc (MRec.mimu q :: rest) ++ T := by
        have : B.drop m = (B.drop p).drop (4 * auds.length) := by
          rw [List.drop_drop]
        rw [this, hdropP]
        rw [List.drop_left' hLa]
      have hmarker : isMarkerAt B m := by
        unfold isMarkerAt
        rw [hdropM, mEnc_cons]
        simp only [MRec.enc, List.append_assoc]
        rw [List.take_left' (by simp [IMU_MARKER])]
      have hnomid : ∀ k, p ≤ k → k < m → ¬ isMarkerAt B k := by
        intro k hk hkm hmk
        rcases hcl k hmk with hmem | hend
        · rw [imuStarts_append] at hmem
          rcases List.mem_append.mp hmem with hd | ha
          · have := (imuStarts_mem_bounds done 0 k hd).2
            simp only [Nat.zero_add] at this
            omega
          · rw [imuStarts_append] at ha
            simp only [Nat.zero_add] at ha
            rcases List.mem_append.mp ha with haa | hqr
            · rw [imuStarts_all_audio auds _ hall] at haa
              simp at haa
            · simp only [imuStarts, MRec.isImu, if_pos, hLa] at hqr
              rcases List.mem_append.mp hqr with h1 | h2
              · simp at h1
                omega
              · have := (imuStarts_mem_bounds rest _ k h2).1
                rw [hq28] at this
                omega
        · rw [hLtot] at hend
          omega
      have hfind : markerFind B p = some m := by
        apply markerFind_of (by omega) hmarker
        exact hnomid
      have h4 : m + 4 + IMU_PACKET_SIZE_BYTES ≤ B.length := by
        simp only [IMU_PACKET_SIZE_BYTES]
        omega
      rw [markerLoop_some_full hfind h4]
      have hgl : ∀ g ∈ auds.map MRec.enc, g.length = 4 := by
        intro g hg
        obtain ⟨r, hr, rfl⟩ := List.mem_map.mp hg
        cases r with
        | maud pp => exact MRec.enc_length_maud (hwfa _ hr)
        | mimu pp =>
          have := hall _ hr
          simp [MRec.isImu] at this
      rw [audioStrides_groups (auds.map MRec.enc) B p m a
        (mEnc (MRec.mimu q :: rest) ++ T) hgl
        (by rw [hdropP]; rfl)
        (by simp only [List.length_map]; omega)
        (by simp only [List.length_map]; omega)]
      have houts : (auds.map MRec.enc).map decodeI32l = mAudioOuts auds :=
        mAudioOuts_all_audio auds hall
      simp only [List.length_map, houts]
      have hpacket : (B.drop (m + 4)).take IMU_PACKET_SIZE_BYTES = q := by
        have hdq : B.drop (m + 4) = q ++ (mEnc rest ++ T) := by
          have h1 : B.drop (m + 4) = (B.drop m).drop 4 := by
            rw [List.drop_drop]
          rw [h1, hdropM, mEnc_cons]
          simp only [MRec.enc, List.append_assoc]
          rw [List.drop_left' (by simp [IMU_MARKER] : IMU_MARKER.length = 4)]
        rw [hdq]
        simp only [IMU_PACKET_SIZE_BYTES]
        exact List.take_left' hqlen
      rw [hpacket]
      have hassoc : (done ++ auds ++ [MRec.mimu q]) ++ rest =
          done ++ (auds ++ MRec.mimu q :: rest) := by
        simp
      have hd28 : (mEnc (done ++ auds ++ [MRec.mimu q])).length = m + 28 := by
        rw [mEnc_append, mEnc_append, mEnc_cons, mEnc_nil]
        simp only [List.length_append, hLa, hq28, List.length_nil]
      have hlenrest : rest.length ≤ n := by
        simp only [List.length_append, List.length_cons] at hn
        omega
      have ihres := ih rest (done ++ auds ++ [MRec.mimu q]) T
        (a ++ mAudioOuts auds) (i ++ [decodeWords q]) hlenrest hwfrest hT
        (by rw [hassoc]; exact hcl)
      rw [hassoc, hd28, ← hB] at ihres
      have hmp : m + 4 + IMU_PACKET_SIZE_BYTES = m + 28 := by
        simp [IMU_PACKET_SIZE_BYTES]
      rw [hmp, ihres]
      simp [mAudioOuts_append, mAudioOuts_cons, mImuOuts_append, mImuOuts_cons,
        MRec.audioOut, MRec.imuOut, mImuOuts_all_audio auds hall,
        List.append_assoc]

/-! ## Prefix decomposition of an encoded record stream -/

theorem recDecomp :
    ∀ (rs : List MRec) (n : Nat), n ≤ (mEnc rs).length →
      ∃ xs ys t, rs = xs ++ ys ∧ n = (mEnc xs).length + t ∧
        ((ys = [] ∧ t = 0) ∨ (∃ r yr, ys = r :: yr ∧ t < r.enc.length)) ∧
        (mEnc rs).take n = mEnc xs ++ (mEnc ys).take t := by
  intro rs
  induction rs with
  | nil =>
    intro n hn
    simp only [mEnc_nil, List.length_nil, Nat.le_zero] at hn
    subst hn
    exact ⟨[], [], 0, by simp, by simp [mEnc_nil], Or.inl ⟨rfl, rfl⟩,
      by simp [mEnc_nil]⟩
  | cons r rs ih =>
    intro n hn
    by_cases hc : n < r.enc.length
    · refine ⟨[], r :: rs, n, rfl, by simp [mEnc_nil], Or.inr ⟨r, rs, rfl, hc⟩, ?_⟩
      simp [mEnc_nil]
    · push_neg at hc
      have hn' : n - r.enc.length ≤ (mEnc rs).length := by
        rw [mEnc_cons, List.length_append] at hn
        omega
      obtain ⟨xs, ys, t, h1, h2, h3, h4⟩ := ih (n - r.enc.length) hn'
      refine ⟨r :: xs, ys, t, by rw [List.cons_append, h1], ?_, h3, ?_⟩
      · rw [mEnc_cons, List.length_append]
        clear h3 h4
        omega
      · rw [mEnc_cons, List.take_append_eq_append_take,
          List.take_of_length_le (by omega), h4, mEnc_cons, List.append_assoc]

/-! ## Transfer of marker occurrences between stream segments -/

theorem isMarkerAt_of_append {X Z : List Nat} {j : Nat}
    (h : isMarkerAt X j) : isMarkerAt (X ++ Z) j := by
  have hb := isMarkerAt_bound h
  unfold isMarkerAt at h ⊢
  rw [List.drop_append_of_le_length (by omega),
    List.take_append_of_le_length (by simp; omega)]
  exact h

theorem imuStarts_off :
    ∀ (rs : List MRec) (off : Nat),
      imuStarts rs off = (imuStarts rs 0).map (off + ·) := by
  intro rs
  induction rs with
  | nil => intro off; rfl
  | cons r rs ih =>
    intro off
    simp only [imuStarts, List.map_append]
    rw [ih (off + r.enc.length), ih (0 + r.enc.length)]
    congr 1
    · cases r.isImu <;> simp
    · simp [List.map_map, Function.comp, Nat.add_assoc]

theorem imuStarts_mem_off {rs : List MRec} {off j : Nat}
    (h : j ∈ imuStarts rs off) : ∃ j0 ∈ imuStarts rs 0, j = off + j0 := by
  rw [imuStarts_off] at h
  obtain ⟨j0, hj0, hje⟩ := List.mem_map.mp h
  exact ⟨j0, hj0, hje.symm⟩

/-! ## Feeding a clean record stream in arbitrary chunks -/

/-- Feeding the remaining bytes of a clean record stream, in any chunk
sequence, from the canonical waiting state (`t` bytes of the next record
buffered): everything is consumed and every record decoded in order. -/
theorem markerFeeds_clean :
    ∀ (cs : List (List Nat)) (done rest' : List MRec) (t : Nat)
      (a : List Int) (i : List (List Nat)),
      (∀ r ∈ done ++ rest', r.wf) →
      cleanS (done ++ rest') →
      ((rest' = [] ∧ t = 0) ∨ (∃ r yr, rest' = r :: yr ∧ t < r.enc.length)) →
      (mEnc rest').take t ++ cs.flatten = mEnc rest' →
      markerFeeds ⟨(mEnc rest').take t, a, i⟩ cs =
        ⟨[], a ++ mAudioOuts rest', i ++ mImuOuts rest'⟩ := by
  intro cs
  induction cs with
  | nil =>
    intro done rest' t a i hwf hclean hshape heq
    simp only [List.flatten_nil, List.append_nil] at heq
    rcases hshape with ⟨hr, ht⟩ | ⟨r, yr, hr, ht⟩
    · subst hr; subst ht
      simp [markerFeeds, mAudioOuts_nil, mImuOuts_nil, mEnc_nil]
    · exfalso
      have hlen := congrArg List.length heq
      rw [List.length_take] at hlen
      have hrl : r.enc.length ≤ (mEnc rest').length := by
        rw [hr, mEnc_cons, List.length_append]
        omega
      omega
  | cons c cs ih =>
    intro done rest' t a i hwf hclean hshape heq
    have hTlen : ((mEnc rest').take t).length = t := by
      rw [List.length_take]
      rcases hshape with ⟨hr, ht⟩ | ⟨r, yr, hr, ht⟩
      · subst hr; subst ht; simp
      · have : r.enc.length ≤ (mEnc rest').length := by
          rw [hr, mEnc_cons, List.length_append]; omega
        omega
    have heqB : ((mEnc rest').take t ++ c) ++ cs.flatten = mEnc rest' := by
      rw [List.append_assoc]
      simpa [List.flatten_cons] using heq
    have hnle : t + c.length ≤ (mEnc rest').length := by
      have := congrArg List.length heqB
      simp only [List.length_append, hTlen] at this
      omega
    obtain ⟨xs, ys, t'', hsplit, hnlen, hshape'', htake⟩ :=
      recDecomp rest' (t + c.length) hnle
    have hBtake : (mEnc rest').take t ++ c = (mEnc rest').take (t + c.length) := by
      have hpl : ((mEnc rest').take t ++ c).length = t + c.length := by
        rw [List.length_append, hTlen]
      have := @List.take_left' Nat ((mEnc rest').take t ++ c) cs.flatten
        (t + c.length) hpl
      rw [heqB] at this
      exact this.symm
    have hB : (mEnc rest').take t ++ c = mEnc xs ++ (mEnc ys).take t'' := by
      rw [hBtake, htake]
    -- well-formedness of the pieces
    have hwfxs : ∀ r ∈ xs, r.wf := by
      intro r hr
      apply hwf
      rw [hsplit]
      exact List.mem_append.mpr (Or.inr (List.mem_append.mpr (Or.inl hr)))
    have hwfys : ∀ r ∈ ys, r.wf := by
      intro r hr
      apply hwf
      rw [hsplit]
      exact List.mem_append.mpr (Or.inr (List.mem_append.mpr (Or.inr hr)))
    -- the inert-tail condition for the undecodable remainder
    have hT : ((mEnc ys).take t'').length ≤ 3 ∨
        (((mEnc ys).take t'').take 4 = IMU_MARKER ∧
          ((mEnc ys).take t'').length < 28) := by
      rcases hshape'' with ⟨hys, ht''⟩ | ⟨r, yr, hys, ht''⟩
      · left; subst hys; subst ht''; simp
      · cases r with
        | maud pp =>
          left
          have hwfr : (MRec.maud pp).wf := hwfys _ (by rw [hys]; simp)
          have hple : pp.length = 4 := hwfr
          have : (MRec.maud pp).enc.length = 4 := by simp [MRec.enc, hple]
          rw [List.length_take]
          omega
        | mimu pp =>
          by_cases hsmall : t'' ≤ 3
          · left
            rw [List.length_take]
            omega
          · right
            have hwfr : (MRec.mimu pp).wf := hwfys _ (by rw [hys]; simp)
            have henclen : (MRec.mimu pp).enc.length = 28 :=
              MRec.enc_length_mimu hwfr
            have hyslen : 28 ≤ (mEnc ys).length := by
              rw [hys, mEnc_cons, List.length_append, henclen]
              omega
            constructor
            · rw [List.take_take]
              have h4t : min 4 t'' = 4 := by omega
              rw [h4t, hys, mEnc_cons]
              have hmm : (MRec.mimu pp).enc ++ mEnc yr =
                  IMU_MARKER ++ (pp ++ mEnc yr) := by
                simp [MRec.enc, List.append_assoc]
              rw [hmm]
              exact List.take_left' (by simp [IMU_MARKER])
            · rw [List.length_take]
              omega
    -- cleanliness of the fed buffer relative to its own records
    have hclB : ∀ j, isMarkerAt (mEnc xs ++ (mEnc ys).take t'') j →
        j ∈ imuStarts xs 0 ∨ j = (mEnc xs).length := by
      intro j hj
      have hjb := isMarkerAt_bound hj
      have hjrest : isMarkerAt (mEnc rest') j := by
        rw [← heqB, hB]
        exact isMarkerAt_of_append hj
      have hjS : isMarkerAt (mEnc (done ++ rest')) ((mEnc done).length + j) := by
        have hdl : (mEnc (done ++ rest')).drop (mEnc done).length = mEnc rest' := by
          rw [mEnc_append, List.drop_left]
        rw [← isMarkerAt_drop, hdl]
        exact hjrest
      have hmem := hclean _ (by
          have := isMarkerAt_bound hjS
          omega) hjS
      rw [imuStarts_append] at hmem
      rcases List.mem_append.mp hmem with hd | hrp
      · exfalso
        have := (imuStarts_mem_bounds done 0 _ hd).2
        simp only [Nat.zero_add] at this
        omega
      · simp only [Nat.zero_add] at hrp
        obtain ⟨j0, hj0, hje⟩ := imuStarts_mem_off hrp
        have hjj0 : j = j0 := by omega
        subst hjj0
        rw [hsplit, imuStarts_append] at hj0
        rcases List.mem_append.mp hj0 with hx | hy
        · exact Or.inl hx
        · simp only [Nat.zero_add] at hy
          obtain ⟨k, hk, hke⟩ := imuStarts_mem_off hy
          subst hke
          right
          rcases hshape'' with ⟨hys, ht''⟩ | ⟨r, yr, hys, ht''⟩
          · exfalso
            subst hys
            simp [imuStarts] at hk
          · subst hys
            simp only [imuStarts, List.mem_append] at hk
            have hklen : (mEnc xs).length + k + 4 ≤
                (mEnc xs ++ (mEnc (r :: yr)).take t'').length := hjb
            rw [List.length_append, List.length_take] at hklen
            rcases hk with hk0 | hktail
            · cases hri : r.isImu with
              | true => rw [hri] at hk0; simp at hk0; omega
              | false => rw [hri] at hk0; simp at hk0
            · exfalso
              obtain ⟨k0, _, hk0e⟩ := imuStarts_mem_off hktail
              omega
    -- one pass of the parse loop over the fed buffer
    have hpass := markerLoop_clean xs.length xs [] ((mEnc ys).take t'')
      a i le_rfl hwfxs hT (by simpa using hclB)
    simp only [List.nil_append, mEnc_nil, List.length_nil] at hpass
    -- the feed computes the canonical successor state
    have hfeed : markerFeed ⟨(mEnc rest').take t, a, i⟩ c =
        ⟨(mEnc ys).take t'', a ++ mAudioOuts xs, i ++ mImuOuts xs⟩ := by
      simp only [markerFeed]
      rw [hB, hpass]
      rw [List.drop_left]
    have hfold : markerFeeds ⟨(mEnc rest').take t, a, i⟩ (c :: cs) =
        markerFeeds (markerFeed ⟨(mEnc rest').take t, a, i⟩ c) cs := rfl
    rw [hfold, hfeed]
    have heq'' : (mEnc ys).take t'' ++ cs.flatten = mEnc ys := by
      have h1 : (mEnc xs ++ (mEnc ys).take t'') ++ cs.flatten =
          mEnc xs ++ mEnc ys := by
        rw [← hB, heqB, hsplit, mEnc_append]
      rw [List.append_assoc] at h1
      exact List.append_cancel_left h1
    have hre : (done ++ xs) ++ ys = done ++ rest' := by
      rw [hsplit, List.append_assoc]
    have ihres := ih (done ++ xs) ys t'' (a ++ mAudioOuts xs)
      (i ++ mImuOuts xs)
      (by rw [hre]; exact hwf)
      (by rw [hre]; exact hclean)
      hshape'' heq''
    rw [ihres]
    rw [hsplit, mAudioOuts_append, mImuOuts_append]
    simp [List.append_assoc]



theorem MRec.enc_pos {r : MRec} (h : r.wf) : 0 < r.enc.length := by
  cases r with
  | maud p =>
    have hp : p.length = 4 := h
    simp [MRec.enc, hp]
  | mimu p => simp [MRec.enc, IMU_MARKER]

/-- Feeding a whole clean record stream, split into arbitrary chunks, from a
fresh state: every record is decoded in order and the buffer is drained. -/
theorem markerFeeds_stream (RS : List MRec) (cs : List (List Nat))
    (hwf : ∀ r ∈ RS, r.wf) (hclean : cleanS RS)
    (hcs : cs.flatten = mEnc RS) :
    markerFeeds initM cs = ⟨[], mAudioOuts RS, mImuOuts RS⟩ := by
  have hshape : (RS = [] ∧ 0 = 0) ∨
      (∃ r yr, RS = r :: yr ∧ 0 < r.enc.length) := by
    cases RS with
    | nil => exact Or.inl ⟨rfl, rfl⟩
    | cons r yr =>
      exact Or.inr ⟨r, yr, rfl, MRec.enc_pos (hwf r (List.mem_cons_self _ _))⟩
  have := markerFeeds_clean cs [] RS 0 [] []
    (by simpa using hwf) (by simpa using hclean) hshape (by simpa using hcs)
  simpa [initM, markerFeeds] using this

/-- Each marker-format record contributes exactly one decoded element. -/
theorem mOuts_length :
    ∀ rs : List MRec, (mAudioOuts rs).length + (mImuOuts rs).length = rs.length := by
  intro rs
  induction rs with
  | nil => rfl
  | cons r rest ih =>
    rw [mAudioOuts_cons, mImuOuts_cons]
    simp only [List.length_append, List.length_cons]
    cases r <;> simp [MRec.audioOut, MRec.imuOut] <;> omega

theorem decodeAudio16_length :
    ∀ (n : Nat) (p : List Nat), p.length = 2 * n → (decodeAudio16 p).length = n := by
  intro n
  induction n with
  | zero =>
    intro p hp
    have : p = [] := List.length_eq_zero.mp (by omega)
    subst this
    rfl
  | succ n ih =>
    intro p hp
    cases p with
    | nil => simp at hp
    | cons b0 p' =>
      cases p' with
      | nil => simp at hp; omega
      | cons b1 rest =>
        unfold decodeAudio16
        simp only [List.length_cons]
        rw [ih rest (by simp at hp; omega)]

/-- Decoded-output lengths for a well-formed typed record stream. -/
theorem tOuts_length (aLen : Nat) :
    ∀ rs : List TRec, (∀ r ∈ rs, TRec.wf aLen r) →
      (tAudioOuts rs).length = aLen * rs.countP (fun r => r.isAud) ∧
      (tImuOuts rs).length = rs.countP (fun r => !r.isAud) := by
  intro rs
  induction rs with
  | nil => intro _; simp [tAudioOuts, tImuOuts]
  | cons r rest ih =>
    intro hwf
    obtain ⟨ih1, ih2⟩ := ih (fun x hx => hwf x (List.mem_cons_of_mem _ hx))
    have hr := hwf r (List.mem_cons_self _ _)
    cases r with
    | taud p =>
      have hp : p.length = 2 * aLen := hr
      constructor
      · simp only [tAudioOuts, List.map_cons, List.flatten_cons,
          List.length_append, TRec.audioOut, List.countP_cons]
        rw [decodeAudio16_length aLen p hp]
        simp only [tAudioOuts] at ih1
        rw [ih1]
        simp [TRec.isAud]
        ring
      · simp only [tImuOuts, List.map_cons, List.flatten_cons,
          List.length_append, TRec.imuOut, List.countP_cons]
        simp only [tImuOuts] at ih2
        rw [ih2]
        simp [TRec.isAud]
    | timu p =>
      constructor
      · simp only [tAudioOuts, List.map_cons, List.flatten_cons,
          List.length_append, TRec.audioOut, List.countP_cons]
        simp only [tAudioOuts] at ih1
        rw [ih1]
        simp [TRec.isAud]
      · simp only [tImuOuts, List.map_cons, List.flatten_cons,
          List.length_append, TRec.imuOut, List.countP_cons]
        simp only [tImuOuts] at ih2
        rw [ih2]
        simp [TRec.isAud]
        omega

/-! ## Buffer-suffix lemmas over whole chunk sequences -/

theorem typedFeed_buffer (dec : List Nat → Option (List Nat)) (aLen : Nat)
    (st : DState) (c : List Nat) :
    ∃ k, k ≤ (st.buffer ++ c).length ∧
      (typedFeed dec aLen st c).buffer = (st.buffer ++ c).drop k := by
  obtain ⟨k, hk, hb⟩ := typedLoop_buffer dec aLen (st.buffer ++ c).length
    ⟨st.buffer ++ c, st.audio, st.imu⟩ le_rfl
  exact ⟨k, hk, hb⟩

theorem markerFeed_buffer (st : MState) (c : List Nat) :
    ∃ k, k ≤ (st.buffer ++ c).length ∧
      (markerFeed st c).buffer = (st.buffer ++ c).drop k := by
  refine ⟨(markerLoop (st.buffer ++ c) 0 st.audio st.imu).1, ?_, rfl⟩
  exact markerLoop_le (st.buffer ++ c) (st.buffer ++ c).length 0 st.audio st.imu
    (by omega) (by omega)

theorem typedFeeds_buffer (dec : List Nat → Option (List Nat)) (aLen : Nat) :
    ∀ (cs : List (List Nat)) (st : DState),
      ∃ k, k ≤ (st.buffer ++ cs.flatten).length ∧
        (typedFeeds dec aLen st cs).buffer = (st.buffer ++ cs.flatten).drop k := by
  intro cs
  induction cs with
  | nil =>
    intro st
    exact ⟨0, by simp, by simp [typedFeeds]⟩
  | cons c cs ih =>
    intro st
    obtain ⟨k1, hk1, hb1⟩ := typedFeed_buffer dec aLen st c
    obtain ⟨k2, hk2, hb2⟩ := ih (typedFeed dec aLen st c)
    have hfold : typedFeeds dec aLen st (c :: cs) =
        typedFeeds dec aLen (typedFeed dec aLen st c) cs := rfl
    refine ⟨k1 + k2, ?_, ?_⟩
    · rw [hb1] at hk2
      simp only [List.length_append, List.length_drop, List.flatten_cons] at hk1 hk2 ⊢
      omega
    · rw [hfold, hb2, hb1, ← List.drop_append_of_le_length hk1, List.drop_drop]
      simp only [List.flatten_cons, List.append_assoc]

theorem markerFeeds_buffer :
    ∀ (cs : List (List Nat)) (st : MState),
      ∃ k, k ≤ (st.buffer ++ cs.flatten).length ∧
        (markerFeeds st cs).buffer = (st.buffer ++ cs.flatten).drop k := by
  intro cs
  induction cs with
  | nil =>
    intro st
    exact ⟨0, by simp, by simp [markerFeeds]⟩
  | cons c cs ih =>
    intro st
    obtain ⟨k1, hk1, hb1⟩ := markerFeed_buffer st c
    obtain ⟨k2, hk2, hb2⟩ := ih (markerFeed st c)
    have hfold : markerFeeds st (c :: cs) =
        markerFeeds (markerFeed st c) cs := rfl
    refine ⟨k1 + k2, ?_, ?_⟩
    · rw [hb1] at hk2
      simp only [List.length_append, List.length_drop, List.flatten_cons] at hk1 hk2 ⊢
      omega
    · rw [hfold, hb2, hb1, ← List.drop_append_of_le_length hk1, List.drop_drop]
      simp only [List.flatten_cons, List.append_assoc]

/-! ## Concrete evaluation helpers -/

/-- Feeding one whole 4-byte audio record (containing no marker occurrence)
into an empty buffer decodes exactly that sample. -/
theorem markerFeed_audio4 (st : MState) (c : List Nat) (hst : st.buffer = [])
    (hc : c.length = 4) (hnomark : markerFind c 0 = none) :
    markerFeed st c = ⟨[], st.audio ++ [decodeI32l c], st.imu⟩ := by
  obtain ⟨b, a, i⟩ := st
  simp only at hst
  subst hst
  simp only [markerFeed, List.nil_append]
  rw [markerLoop_none hnomark]
  rw [audioStrides_groups [c] c 0 c.length a [] (by simpa using hc)
    (by simp)
    (by simp only [List.length_cons, List.length_nil, hc]; omega)
    (by simp only [List.length_cons, List.length_nil, hc]; omega)]
  simp only [List.length_cons, List.length_nil, List.map_cons, List.map_nil]
  norm_num
  omega

/-- The five-byte scenario input parses to nothing under the configured
`AUDIO_CHUNK_SIZE = 512` (the parser waits for the 1024-byte payload). -/
theorem typedFeedR_five_bytes :
    typedFeedR initD [1, 0, 1, 0, 2] = ⟨[1, 0, 1, 0, 2], [], []⟩ := by
  show typedLoop decodeImuTyped AUDIO_CHUNK_SIZE ⟨[] ++ [1, 0, 1, 0, 2], [], []⟩ = _
  rw [List.nil_append]
  exact typedLoop_none (typedStep_audio_wait decodeImuTyped [] [] (by decide))

/-! ## The claims -/

/-- C1 (amended): for every byte stream consisting of a whole number of
well-formed records, the typed-identifier parser yields the same final state
whether the stream is fed as one chunk or as any split into chunks
(including splits inside a record); the marker-delimited parser does too
provided the 4-byte marker occurs in the stream only as the introducer of
its IMU records (no marker collision). -/
theorem claim1_chunk_invariance :
    (∀ (rs : List TRec) (cs : List (List Nat)),
      (∀ r ∈ rs, TRec.wf AUDIO_CHUNK_SIZE r) →
      cs.flatten = tEnc rs →
      typedFeedsR initD cs = typedFeedsR initD [tEnc rs]) ∧
    (∀ (RS : List MRec) (cs : List (List Nat)),
      (∀ r ∈ RS, MRec.wf r) → cleanS RS →
      cs.flatten = mEnc RS →
      markerFeeds initM cs = markerFeeds initM [mEnc RS]) := by
  constructor
  · intro rs cs _ h1
    simp only [typedFeedsR]
    rw [typedFeeds_eq_flatten, typedFeeds_eq_flatten, h1]
    simp
  · intro RS cs hwf hclean h1
    rw [markerFeeds_stream RS cs hwf hclean h1,
      markerFeeds_stream RS [mEnc RS] hwf hclean (by simp)]

/-- C1 witness: a concrete well-formed record for each parser, fed whole and
fed split inside the record/marker, with all hypotheses discharged. -/
theorem claim1_witness :
    ((∀ r ∈ [TRec.timu (List.replicate 28 (0 : Nat))],
        TRec.wf AUDIO_CHUNK_SIZE r) ∧
      ([[2], List.replicate 28 (0 : Nat)] : List (List Nat)).flatten =
        tEnc [TRec.timu (List.replicate 28 (0 : Nat))] ∧
      typedFeedsR initD [[2], List.replicate 28 (0 : Nat)] =
        typedFeedsR initD [tEnc [TRec.timu (List.replicate 28 (0 : Nat))]]) ∧
    ((∀ r ∈ [MRec.mimu (List.replicate 24 (7 : Nat))], MRec.wf r) ∧
      cleanS [MRec.mimu (List.replicate 24 (7 : Nat))] ∧
      ([[255, 254], [253, 252] ++ List.replicate 24 (7 : Nat)] :
          List (List Nat)).flatten =
        mEnc [MRec.mimu (List.replicate 24 (7 : Nat))] ∧
      markerFeeds initM [[255, 254], [253, 252] ++ List.replicate 24 (7 : Nat)] =
        markerFeeds initM [mEnc [MRec.mimu (List.replicate 24 (7 : Nat))]]) :=
  ⟨⟨by decide, by decide,
      claim1_chunk_invariance.1 [TRec.timu (List.replicate 28 (0 : Nat))]
        [[2], List.replicate 28 (0 : Nat)] (by decide) (by decide)⟩,
    ⟨by decide, by decide, by decide,
      claim1_chunk_invariance.2 [MRec.mimu (List.replicate 24 (7 : Nat))]
        [[255, 254], [253, 252] ++ List.replicate 24 (7 : Nat)]
        (by decide) (by decide) (by decide)⟩⟩

/-- C1 counterexample: a stream of two well-formed 4-byte audio records of
the marker-delimited format whose concatenation contains the marker
straddling the record boundary.  Fed as two whole-record chunks the parser
decodes two audio samples; fed as one chunk it decodes nothing (it takes
the straddling bytes for a marker and waits for an IMU payload), so the
final states differ. -/
theorem claim1_cex :
    (∀ r ∈ [MRec.maud [0, 0, 255, 254], MRec.maud [253, 252, 0, 0]],
      MRec.wf r) ∧
    ([[0, 0, 255, 254], [253, 252, 0, 0]] : List (List Nat)).flatten =
      mEnc [MRec.maud [0, 0, 255, 254], MRec.maud [253, 252, 0, 0]] ∧
    ([[0, 0, 255, 254, 253, 252, 0, 0]] : List (List Nat)).flatten =
      mEnc [MRec.maud [0, 0, 255, 254], MRec.maud [253, 252, 0, 0]] ∧
    markerFeeds initM [[0, 0, 255, 254], [253, 252, 0, 0]] ≠
      markerFeeds initM [[0, 0, 255, 254, 253, 252, 0, 0]] := by
  refine ⟨by decide, by decide, by decide, ?_⟩
  have e1 : markerFeed initM [0, 0, 255, 254] =
      ⟨[], [] ++ [decodeI32l [0, 0, 255, 254]], []⟩ :=
    markerFeed_audio4 initM [0, 0, 255, 254] rfl (by decide) (by decide)
  have e2 : markerFeed ⟨[], [] ++ [decodeI32l [0, 0, 255, 254]], []⟩
      [253, 252, 0, 0] =
      ⟨[], ([] ++ [decodeI32l [0, 0, 255, 254]]) ++ [decodeI32l [253, 252, 0, 0]], []⟩ :=
    markerFeed_audio4 _ [253, 252, 0, 0] rfl (by decide) (by decide)
  have hA : markerFeeds initM [[0, 0, 255, 254], [253, 252, 0, 0]] =
      ⟨[], ([] ++ [decodeI32l [0, 0, 255, 254]]) ++ [decodeI32l [253, 252, 0, 0]], []⟩ := by
    show markerFeed (markerFeed initM [0, 0, 255, 254]) [253, 252, 0, 0] = _
    rw [e1, e2]
  have hB : markerFeeds initM [[0, 0, 255, 254, 253, 252, 0, 0]] =
      ⟨[0, 0, 255, 254, 253, 252, 0, 0], [], []⟩ := by
    show markerFeed initM [0, 0, 255, 254, 253, 252, 0, 0] = _
    simp only [markerFeed, initM, List.nil_append]
    rw [markerLoop_some_wait
      (by decide : markerFind [0, 0, 255, 254, 253, 252, 0, 0] 0 = some 2)
      (by decide)]
    rw [audioStrides_stop (by decide)]
    rfl
  rw [hA, hB]
  decide

/-- C2 (amended): in the typed-identifier parser, when a correctly framed
IMU record's payload fails to decode, the parser logs the error and consumes
exactly one byte — the identifier — from the buffer head; the payload bytes
remain buffered and are re-scanned as fresh input.  (With the repository's
fixed 28-byte slice, `struct.unpack('<ffffffI', ...)` in fact never fails:
the decoder succeeds on every 28-byte packet.) -/
theorem claim2_decode_error_one_byte
    (dec : List Nat → Option (List Nat)) (aLen : Nat)
    (payload rest : List Nat) (a : List Int) (i : List (List Nat))
    (hp : payload.length = 28)
    (hd : dec ((payload ++ rest).take 28) = none) :
    typedStep dec aLen ⟨2 :: (payload ++ rest), a, i⟩ =
      some ⟨payload ++ rest, a, i⟩ ∧
    ∀ q : List Nat, q.length = 28 → decodeImuTyped q = some (decodeWords q) := by
  constructor
  · exact typedStep_imu_err aLen a i
      (by simp only [List.length_append]; omega) hd
  · intro q hq
    unfold decodeImuTyped
    rw [if_pos hq]

/-- C2 witness: the decode-error step at a concrete 28-byte payload and a
decoder that rejects it. -/
theorem claim2_witness :
    (List.replicate 28 (0 : Nat)).length = 28 ∧
    ((fun _ : List Nat => (none : Option (List Nat)))
        ((List.replicate 28 (0 : Nat) ++ []).take 28) = none) ∧
    (typedStep (fun _ => none) AUDIO_CHUNK_SIZE
        ⟨2 :: (List.replicate 28 (0 : Nat) ++ []), [], []⟩ =
      some ⟨List.replicate 28 (0 : Nat) ++ [], [], []⟩ ∧
    ∀ q : List Nat, q.length = 28 → decodeImuTyped q = some (decodeWords q)) :=
  ⟨by decide, rfl,
    claim2_decode_error_one_byte (fun _ => none) AUDIO_CHUNK_SIZE
      (List.replicate 28 (0 : Nat)) [] [] [] (by decide) rfl⟩

/-- C2 counterexample: on a decode failure (exhibited by a rejecting
decoder) over the framed record `0x02` + 28 payload bytes `0x01`, the parser
retains the 28 payload bytes in the buffer — it does not consume the full
record, whose consumption would leave the buffer empty.  (The first payload
byte `0x01` is then re-read as an audio identifier and the parser waits for
a 1024-byte payload.) -/
theorem claim2_cex :
    typedFeed (fun _ => none) AUDIO_CHUNK_SIZE initD
        (2 :: List.replicate 28 (1 : Nat)) =
      ⟨List.replicate 28 (1 : Nat), [], []⟩ ∧
    (List.replicate 28 (1 : Nat)) ≠ ([] : List Nat) := by
  constructor
  · show typedLoop (fun _ => none) AUDIO_CHUNK_SIZE
      ⟨[] ++ (2 :: List.replicate 28 (1 : Nat)), [], []⟩ = _
    rw [List.nil_append]
    rw [typedLoop_some (typedStep_imu_err AUDIO_CHUNK_SIZE [] [] (by decide) rfl)]
    have hrep : (List.replicate 28 (1 : Nat)) = 1 :: List.replicate 27 1 := rfl
    rw [hrep]
    rw [typedLoop_none (typedStep_audio_wait (fun _ => none) [] [] (by decide))]
  · decide

/-- C3 (amended): with the configured `AUDIO_CHUNK_SIZE = 512` (1024 payload
bytes per audio record), feeding `0x01` + `00 01 00 02` to the typed parser
leaves both sequences empty and all five bytes buffered, because the record
is incomplete; the stated output `[256, 512]` is what the parser produces
when the audio chunk size is 2 samples (4 payload bytes). -/
theorem claim3_audio_scenario :
    typedFeedR initD [1, 0, 1, 0, 2] = ⟨[1, 0, 1, 0, 2], [], []⟩ ∧
    typedFeed decodeImuTyped 2 initD [1, 0, 1, 0, 2] = ⟨[], [256, 512], []⟩ := by
  refine ⟨typedFeedR_five_bytes, ?_⟩
  show typedLoop decodeImuTyped 2 ⟨[] ++ [1, 0, 1, 0, 2], [], []⟩ = _
  rw [List.nil_append]
  rw [typedLoop_some (typedStep_audio_go decodeImuTyped [] [] (by decide))]
  have hst : (⟨List.drop (2 * 2) [0, 1, 0, 2],
      [] ++ decodeAudio16 (List.take (2 * 2) [0, 1, 0, 2]), []⟩ : DState) =
      ⟨[], [256, 512], []⟩ := by decide
  rw [hst]
  exact typedLoop_none (typedStep_nil decodeImuTyped 2 [256, 512] [])

/-- C3 counterexample: as configured (`AUDIO_CHUNK_SIZE = 512`), the 5-byte
input `0x01 00 01 00 02` produces an empty audio sequence, not `[256, 512]`. -/
theorem claim3_cex :
    (typedFeedR initD [1, 0, 1, 0, 2]).audio ≠ [(256 : Int), 512] := by
  rw [typedFeedR_five_bytes]
  decide

/-- C4: feeding the marker `FF FE FD FC` followed by the 24 bytes encoding
the six little-endian IEEE-754 single floats `(1.0, 0.0, -1.0, 0.0, 0.0,
0.0)` to the marker-delimited parser yields exactly one IMU tuple — the six
32-bit words `3F800000, 0, BF800000, 0, 0, 0`, i.e. those floats — and an
empty audio sequence, with the buffer drained. -/
theorem claim4_imu_scenario :
    markerFeed initM ([255, 254, 253, 252] ++
        [0, 0, 128, 63, 0, 0, 0, 0, 0, 0, 128, 191,
          0, 0, 0, 0, 0, 0, 0, 0, 0, 0, 0, 0]) =
      ⟨[], [], [[1065353216, 0, 3212836864, 0, 0, 0]]⟩ := by
  have h := markerFeeds_stream
    [MRec.mimu [0, 0, 128, 63, 0, 0, 0, 0, 0, 0, 128, 191,
      0, 0, 0, 0, 0, 0, 0, 0, 0, 0, 0, 0]]
    [[255, 254, 253, 252] ++
      [0, 0, 128, 63, 0, 0, 0, 0, 0, 0, 128, 191,
        0, 0, 0, 0, 0, 0, 0, 0, 0, 0, 0, 0]]
    (by decide) (by decide) (by decide)
  have h3 : (⟨[], mAudioOuts [MRec.mimu [0, 0, 128, 63, 0, 0, 0, 0, 0, 0, 128,
      191, 0, 0, 0, 0, 0, 0, 0, 0, 0, 0, 0, 0]],
      mImuOuts [MRec.mimu [0, 0, 128, 63, 0, 0, 0, 0, 0, 0, 128, 191,
        0, 0, 0, 0, 0, 0, 0, 0, 0, 0, 0, 0]]⟩ : MState) =
      ⟨[], [], [[1065353216, 0, 3212836864, 0, 0, 0]]⟩ := by decide
  exact h.trans h3

/-- C5: feeding `0x02` plus the first 10 of the 28 IMU payload bytes leaves
both output sequences empty with exactly those 11 bytes buffered; a second
feed with the remaining 18 bytes decodes exactly one IMU tuple and empties
the buffer. -/
theorem claim5_partial_imu (p : List Nat) (hp : p.length = 28) :
    typedFeedR initD (2 :: p.take 10) = ⟨2 :: p.take 10, [], []⟩ ∧
    (2 :: p.take 10).length = 11 ∧
    typedFeedR ⟨2 :: p.take 10, [], []⟩ (p.drop 10) = ⟨[], [], [decodeWords p]⟩ := by
  have hlen10 : (p.take 10).length = 10 := by
    rw [List.length_take, hp]
    omega
  refine ⟨?_, ?_, ?_⟩
  · show typedLoop decodeImuTyped AUDIO_CHUNK_SIZE
      ⟨[] ++ (2 :: p.take 10), [], []⟩ = _
    rw [List.nil_append]
    exact typedLoop_none (typedStep_imu_wait decodeImuTyped AUDIO_CHUNK_SIZE [] []
      (by rw [hlen10]; omega))
  · simp [hlen10]
  · show typedLoop decodeImuTyped AUDIO_CHUNK_SIZE
      ⟨(2 :: p.take 10) ++ p.drop 10, [], []⟩ = _
    have hbuf : (2 :: p.take 10) ++ p.drop 10 = 2 :: p := by
      rw [List.cons_append, List.take_append_drop]
    rw [hbuf]
    have hdec : decodeImuTyped (p.take 28) = some (decodeWords p) := by
      rw [List.take_of_length_le (by omega)]
      unfold decodeImuTyped
      rw [if_pos hp]
    rw [typedLoop_some (typedStep_imu_ok AUDIO_CHUNK_SIZE [] [] (by omega) hdec)]
    have hdrop : p.drop 28 = [] := by
      rw [← hp, List.drop_length]
    rw [hdrop]
    rw [typedLoop_none (typedStep_nil decodeImuTyped AUDIO_CHUNK_SIZE []
      ([] ++ [decodeWords p]))]
    simp

/-- C5 witness: the two-chunk IMU scenario at a concrete 28-byte payload. -/
theorem claim5_witness :
    (List.replicate 28 (0 : Nat)).length = 28 ∧
    (typedFeedR initD (2 :: (List.replicate 28 (0 : Nat)).take 10) =
        ⟨2 :: (List.replicate 28 (0 : Nat)).take 10, [], []⟩ ∧
      (2 :: (List.replicate 28 (0 : Nat)).take 10).length = 11 ∧
      typedFeedR ⟨2 :: (List.replicate 28 (0 : Nat)).take 10, [], []⟩
          ((List.replicate 28 (0 : Nat)).drop 10) =
        ⟨[], [], [decodeWords (List.replicate 28 (0 : Nat))]⟩) :=
  ⟨by decide, claim5_partial_imu (List.replicate 28 (0 : Nat)) (by decide)⟩

/-- C6: in the typed-identifier parser an unrecognized identifier byte
causes exactly one byte to be dropped from the buffer head, so a stream of
one stray unrecognized byte followed by a well-formed record still decodes
that record, losing only the stray byte. -/
theorem claim6_resync (stray : Nat) (r : TRec)
    (h1 : stray ≠ 1) (h2 : stray ≠ 2) (hwf : TRec.wf AUDIO_CHUNK_SIZE r) :
    typedStep decodeImuTyped AUDIO_CHUNK_SIZE ⟨stray :: r.enc, [], []⟩ =
      some ⟨r.enc, [], []⟩ ∧
    typedFeedR initD (stray :: r.enc) = typedFeedR initD r.enc ∧
    typedFeedR initD r.enc = ⟨[], r.audioOut, r.imuOut⟩ := by
  refine ⟨typedStep_unknown decodeImuTyped AUDIO_CHUNK_SIZE r.enc [] [] h1 h2,
    ?_, ?_⟩
  · show typedLoop decodeImuTyped AUDIO_CHUNK_SIZE
        ⟨[] ++ (stray :: r.enc), [], []⟩ =
      typedLoop decodeImuTyped AUDIO_CHUNK_SIZE ⟨[] ++ r.enc, [], []⟩
    rw [List.nil_append, List.nil_append]
    exact typedLoop_some
      (typedStep_unknown decodeImuTyped AUDIO_CHUNK_SIZE r.enc [] [] h1 h2)
  · show typedLoop decodeImuTyped AUDIO_CHUNK_SIZE ⟨[] ++ r.enc, [], []⟩ = _
    rw [List.nil_append]
    have h := typedLoop_records AUDIO_CHUNK_SIZE [r] [] []
      (by intro x hx; simp at hx; subst hx; exact hwf)
    simpa [tEnc, tAudioOuts, tImuOuts] using h

/-- C6 witness: stray byte `0x07` followed by a concrete well-formed IMU
record. -/
theorem claim6_witness :
    (7 : Nat) ≠ 1 ∧ (7 : Nat) ≠ 2 ∧
    TRec.wf AUDIO_CHUNK_SIZE (TRec.timu (List.replicate 28 (0 : Nat))) ∧
    (typedStep decodeImuTyped AUDIO_CHUNK_SIZE
        ⟨7 :: (TRec.timu (List.replicate 28 (0 : Nat))).enc, [], []⟩ =
      some ⟨(TRec.timu (List.replicate 28 (0 : Nat))).enc, [], []⟩ ∧
    typedFeedR initD (7 :: (TRec.timu (List.replicate 28 (0 : Nat))).enc) =
      typedFeedR initD (TRec.timu (List.replicate 28 (0 : Nat))).enc ∧
    typedFeedR initD (TRec.timu (List.replicate 28 (0 : Nat))).enc =
      ⟨[], (TRec.timu (List.replicate 28 (0 : Nat))).audioOut,
        (TRec.timu (List.replicate 28 (0 : Nat))).imuOut⟩) :=
  ⟨by decide, by decide, by decide,
    claim6_resync 7 (TRec.timu (List.replicate 28 (0 : Nat)))
      (by decide) (by decide) (by decide)⟩

/-- C7 (amended): for a stream of well-formed records, the typed-identifier
parser decodes `AUDIO_CHUNK_SIZE` audio samples per audio record and one
tuple per IMU record (each audio record carries `AUDIO_CHUNK_SIZE` samples,
so the sample count is `AUDIO_CHUNK_SIZE` times the audio-record count);
for the marker-delimited parser (with no marker collision) the count of
decoded audio samples plus IMU records equals the record count.  No record
is dropped and none is produced twice. -/
theorem claim7_counts :
    (∀ rs : List TRec, (∀ r ∈ rs, TRec.wf AUDIO_CHUNK_SIZE r) →
      (typedFeedR initD (tEnc rs)).audio.length =
        AUDIO_CHUNK_SIZE * rs.countP (fun r => r.isAud) ∧
      (typedFeedR initD (tEnc rs)).imu.length =
        rs.countP (fun r => !r.isAud)) ∧
    (∀ RS : List MRec, (∀ r ∈ RS, MRec.wf r) → cleanS RS →
      (markerFeed initM (mEnc RS)).audio.length +
        (markerFeed initM (mEnc RS)).imu.length = RS.length) := by
  constructor
  · intro rs hwf
    have hfeed : typedFeedR initD (tEnc rs) =
        ⟨[], [] ++ tAudioOuts rs, [] ++ tImuOuts rs⟩ := by
      show typedLoop decodeImuTyped AUDIO_CHUNK_SIZE ⟨[] ++ tEnc rs, [], []⟩ = _
      rw [List.nil_append]
      exact typedLoop_records AUDIO_CHUNK_SIZE rs [] [] hwf
    rw [hfeed]
    obtain ⟨h1, h2⟩ := tOuts_length AUDIO_CHUNK_SIZE rs hwf
    simp only [List.nil_append]
    exact ⟨h1, h2⟩
  · intro RS hwf hclean
    have hfeed : markerFeed initM (mEnc RS) =
        ⟨[], mAudioOuts RS, mImuOuts RS⟩ := by
      have h := markerFeeds_stream RS [mEnc RS] hwf hclean (by simp)
      exact h
    rw [hfeed]
    exact mOuts_length RS

/-- C7 witness: the counting identities at one concrete record of each
kind and format. -/
theorem claim7_witness :
    ((∀ r ∈ [TRec.timu (List.replicate 28 (0 : Nat))],
        TRec.wf AUDIO_CHUNK_SIZE r) ∧
      ((typedFeedR initD (tEnc [TRec.timu (List.replicate 28 (0 : Nat))])).audio.length =
        AUDIO_CHUNK_SIZE *
          ([TRec.timu (List.replicate 28 (0 : Nat))].countP (fun r => r.isAud)) ∧
      (typedFeedR initD (tEnc [TRec.timu (List.replicate 28 (0 : Nat))])).imu.length =
        [TRec.timu (List.replicate 28 (0 : Nat))].countP (fun r => !r.isAud))) ∧
    ((∀ r ∈ [MRec.mimu (List.replicate 24 (7 : Nat))], MRec.wf r) ∧
      cleanS [MRec.mimu (List.replicate 24 (7 : Nat))] ∧
      (markerFeed initM (mEnc [MRec.mimu (List.replicate 24 (7 : Nat))])).audio.length +
        (markerFeed initM (mEnc [MRec.mimu (List.replicate 24 (7 : Nat))])).imu.length =
        ([MRec.mimu (List.replicate 24 (7 : Nat))] : List MRec).length) :=
  ⟨⟨by decide, claim7_counts.1 [TRec.timu (List.replicate 28 (0 : Nat))] (by decide)⟩,
    ⟨by decide, by decide,
      claim7_counts.2 [MRec.mimu (List.replicate 24 (7 : Nat))]
        (by decide) (by decide)⟩⟩

/-- C7 counterexample: one well-formed typed audio record (1 + 1024 bytes)
decodes to `AUDIO_CHUNK_SIZE = 512` audio samples and no IMU tuple, so the
count of decoded audio samples plus IMU records is 512, not the number of
records (1). -/
theorem claim7_cex :
    (∀ r ∈ [TRec.taud (List.replicate 1024 (0 : Nat))],
      TRec.wf AUDIO_CHUNK_SIZE r) ∧
    (typedFeedR initD (tEnc [TRec.taud (List.replicate 1024 (0 : Nat))])).audio.length +
      (typedFeedR initD (tEnc [TRec.taud (List.replicate 1024 (0 : Nat))])).imu.length ≠
      ([TRec.taud (List.replicate 1024 (0 : Nat))] : List TRec).length := by
  have hwf : ∀ r ∈ [TRec.taud (List.replicate 1024 (0 : Nat))],
      TRec.wf AUDIO_CHUNK_SIZE r := by
    intro r hr
    rw [List.mem_singleton] at hr
    subst hr
    show (List.replicate 1024 (0 : Nat)).length = 2 * AUDIO_CHUNK_SIZE
    rw [List.length_replicate]
    rfl
  refine ⟨hwf, ?_⟩
  have hfeed : typedFeedR initD (tEnc [TRec.taud (List.replicate 1024 (0 : Nat))]) =
      ⟨[], [] ++ tAudioOuts [TRec.taud (List.replicate 1024 (0 : Nat))],
        [] ++ tImuOuts [TRec.taud (List.replicate 1024 (0 : Nat))]⟩ := by
    show typedLoop decodeImuTyped AUDIO_CHUNK_SIZE
      ⟨[] ++ tEnc [TRec.taud (List.replicate 1024 (0 : Nat))], [], []⟩ = _
    rw [List.nil_append]
    exact typedLoop_records AUDIO_CHUNK_SIZE _ [] [] hwf
  rw [hfeed]
  obtain ⟨h1, h2⟩ := tOuts_length AUDIO_CHUNK_SIZE
    [TRec.taud (List.replicate 1024 (0 : Nat))] hwf
  simp only [List.nil_append]
  rw [h1, h2]
  decide

/-- C8: if the connection fails before any data arrives (connect timeout,
connection refused, or a network error during connect), both session
functions return the empty session — empty audio list, empty IMU list and
zero duration — instead of raising to the caller. -/
theorem claim8_connection_failure :
    ∀ d : Nat,
      sessionTyped ConnResult.connTimeout d = ([], [], 0) ∧
      sessionTyped ConnResult.connRefused d = ([], [], 0) ∧
      sessionTyped ConnResult.connOSError d = ([], [], 0) ∧
      sessionMarker ConnResult.connTimeout d = ([], [], 0) ∧
      sessionMarker ConnResult.connRefused d = ([], [], 0) ∧
      sessionMarker ConnResult.connOSError d = ([], [], 0) := by
  intro d
  exact ⟨rfl, rfl, rfl, rfl, rfl, rfl⟩

/-- C9: both demultiplexers only append incoming bytes at the buffer's tail
and only remove decoded bytes as a contiguous prefix: after any feed the
buffer is a suffix (`List.drop k`) of the old buffer followed by the chunk,
and after any chunk sequence from a fresh state the buffer is a contiguous
suffix of the whole received stream. -/
theorem claim9_buffer_suffix :
    (∀ (dec : List Nat → Option (List Nat)) (aLen : Nat) (st : DState)
        (c : List Nat),
      ∃ k, k ≤ (st.buffer ++ c).length ∧
        (typedFeed dec aLen st c).buffer = (st.buffer ++ c).drop k) ∧
    (∀ (st : MState) (c : List Nat),
      ∃ k, k ≤ (st.buffer ++ c).length ∧
        (markerFeed st c).buffer = (st.buffer ++ c).drop k) ∧
    (∀ (dec : List Nat → Option (List Nat)) (aLen : Nat)
        (cs : List (List Nat)),
      ∃ k, k ≤ cs.flatten.length ∧
        (typedFeeds dec aLen initD cs).buffer = cs.flatten.drop k) ∧
    (∀ cs : List (List Nat),
      ∃ k, k ≤ cs.flatten.length ∧
        (markerFeeds initM cs).buffer = cs.flatten.drop k) := by
  refine ⟨typedFeed_buffer, markerFeed_buffer, ?_, ?_⟩
  · intro dec aLen cs
    have := typedFeeds_buffer dec aLen cs initD
    simpa [initD] using this
  · intro cs
    have := markerFeeds_buffer cs initM
    simpa [initM] using this

/-- C10: one call of either inner parse loop always runs to completion:
each iteration consumes bytes or exits, so the fuelled variant of the loop,
given `buffer length + 1` iterations of fuel, returns (rather than running
out of fuel) and agrees with the loop. -/
theorem claim10_termination :
    (∀ (dec : List Nat → Option (List Nat)) (aLen : Nat) (st : DState),
      typedLoopFuel dec aLen (st.buffer.length + 1) st =
        some (typedLoop dec aLen st)) ∧
    (∀ (B : List Nat) (a : List Int) (i : List (List Nat)),
      markerLoopFuel B (B.length + 1) 0 a i = some (markerLoop B 0 a i)) :=
  ⟨fun dec aLen st => typedLoopFuel_eq dec aLen (st.buffer.length + 1) st
      (by omega),
    fun B a i => markerLoopFuel_eq B (B.length + 1) 0 a i (by omega)⟩

end AFRO
